import Mathlib

/-!
# Text editor: the growable byte buffer and its transforms

A shallow embedding of `src/main.cpp`.

* A byte (`char`) is a `Nat`; a storage slot is an `Option Nat`, where `none` is a slot of
  `new char[n]` that has not been written yet (an indeterminate value).
* `CustomVector` keeps the three members of the class: the storage `data` (as many slots as were
  allocated, `[]` for the null pointer), `size` and `capacity`.
* A `char*` into the storage of a buffer is an offset into `data`.
* An operation that can throw or that can leave the defined behaviour of C++ returns an
  `Except Error _`; an operation that mutates the buffer and can throw returns the condition
  together with the buffer it leaves behind.
-/

namespace TextEditor

/-- What an operation can end in instead of a value. -/
inductive Error where
  /-- The exception `out_of_range("Index out of range")` of `operator[]`. -/
  | indexOutOfRange
  /-- The exception `out_of_range("Invalid position")` of `insert`. -/
  | invalidPosition
  /-- A read or write outside an allocation, a read of an indeterminate slot, a signed overflow. -/
  | undefinedBehaviour
  /-- The loop was still running when the fuel of the model ran out. -/
  | outOfFuel
deriving DecidableEq, Repr

/-- Storage of a buffer: one slot per allocated `char`. -/
abbrev Storage := List (Option Nat)

/-- The class `CustomVector`: `char* data; size_t size; size_t capacity;`. -/
structure CustomVector where
  data : Storage
  size : Nat
  capacity : Nat
deriving DecidableEq, Repr

/-- The expression `new char[n]`: `n` slots, none of them written. -/
def newArray (n : Nat) : Storage := List.replicate n none

/-- The loop `for (k = i; k < i + n; ++k) dst[k + shift] = src[k];`. -/
def copyLoop (src dst : Storage) (shift : Nat) : Nat → Nat → Storage
  | _, 0 => dst
  | i, n + 1 => copyLoop src (dst.set (i + shift) (src.getD i none)) shift (i + 1) n

/-- The loop `for (k = i; k > index; --k) data[k] = data[k - 1];`, run for `n` rounds. -/
def shiftLoop (data : Storage) : Nat → Nat → Storage
  | _, 0 => data
  | i, n + 1 => shiftLoop (data.set i (data.getD (i - 1) none)) (i - 1) n

namespace CustomVector

/-- The constructor `CustomVector()`: null storage, size 0, capacity 0. -/
def empty : CustomVector := { data := [], size := 0, capacity := 0 }

/-- The method `push_back(char c)`. -/
def push_back (v : CustomVector) (c : Nat) : CustomVector :=
  if v.size = v.capacity then
    let newCapacity := if v.capacity = 0 then 1 else v.capacity * 2
    let newData := newArray newCapacity
    let newData := if v.data ≠ [] then copyLoop v.data newData 0 0 v.size else newData
    { data := newData.set v.size (some c), size := v.size + 1, capacity := newCapacity }
  else
    { v with data := v.data.set v.size (some c), size := v.size + 1 }

/-- The method `resize(size_t newSize)`. -/
def resize (v : CustomVector) (newSize : Nat) : CustomVector :=
  if newSize < v.size then { v with size := newSize } else v

/-- The method `clear()`. -/
def clear (v : CustomVector) : CustomVector := { v with size := 0 }

/-- The method `getSize()`. -/
def getSize (v : CustomVector) : Nat := v.size

/-- The method `getData()`: the storage a `char*` to its first slot gives access to. -/
def getData (v : CustomVector) : Storage := v.data

/-- Reading through `operator[](index)`. -/
def subscript (v : CustomVector) (index : Nat) : Except Error Nat :=
  if index ≥ v.size then .error .indexOutOfRange
  else
    match v.data[index]? with
    | some (some b) => .ok b
    | _ => .error .undefinedBehaviour

/-- Writing through the reference `operator[](index)` returns: `v[index] = c`. -/
def subscriptAssign (v : CustomVector) (index : Nat) (c : Nat) :
    Except Error Unit × CustomVector :=
  if index ≥ v.size then (.error .indexOutOfRange, v)
  else if index < v.data.length then (.ok (), { v with data := v.data.set index (some c) })
  else (.error .undefinedBehaviour, v)

/-- The class `CustomVector::Iterator`: a `char*`, kept as its offset from the start of the
storage of the buffer it was taken from. -/
structure Iterator where
  ptr : Nat
deriving DecidableEq, Repr

/-- The method `begin()`. -/
def begin (_v : CustomVector) : Iterator := { ptr := 0 }

/-- The operator `Iterator::operator+(size_t offset)`. -/
def Iterator.add (it : Iterator) (offset : Nat) : Iterator := { ptr := it.ptr + offset }

/-- The method `insert(Iterator pos, char value)`. -/
def insert (v : CustomVector) (pos : Iterator) (value : Nat) :
    Except Error Unit × CustomVector :=
  let index := pos.ptr
  if index > v.size then (.error .invalidPosition, v)
  else if v.size = v.capacity then
    let newCapacity := if v.capacity = 0 then 1 else v.capacity * 2
    let newData := newArray newCapacity
    let newData := copyLoop v.data newData 0 0 index
    let newData := newData.set index (some value)
    let newData := copyLoop v.data newData 1 index (v.size - index)
    (.ok (), { data := newData, size := v.size + 1, capacity := newCapacity })
  else
    let data := shiftLoop v.data v.size (v.size - index)
    (.ok (), { v with data := data.set index (some value), size := v.size + 1 })

/-- The bytes of the buffer: the slots `[0, size)` of the storage. -/
def contents (v : CustomVector) : Storage := v.data.take v.size

/-- The buffer `v` is well formed and holds exactly the bytes `xs`. -/
def Holds (v : CustomVector) (xs : List Nat) : Prop :=
  v.capacity = v.data.length ∧ v.size = xs.length ∧ v.data.take v.size = xs.map some

instance (v : CustomVector) (xs : List Nat) : Decidable (Holds v xs) := by
  unfold Holds; infer_instance

/-- The loop `for (b : bs) v.push_back(b);`. -/
def pushAll (v : CustomVector) : List Nat → CustomVector
  | [] => v
  | b :: bs => pushAll (v.push_back b) bs

end CustomVector

open CustomVector

/-- The method `clearAll()`. -/
def CustomVector.clearAll (_v : CustomVector) : CustomVector :=
  { data := [], size := 0, capacity := 0 }

/-- The method `copyFrom(const CustomVector& other)`; `std::copy` copies the slots
`[0, other.size)`. -/
def CustomVector.copyFrom (v other : CustomVector) : CustomVector :=
  let data :=
    if other.data ≠ [] then copyLoop other.data (newArray other.capacity) 0 0 other.size
    else v.data
  { data := data, size := other.size, capacity := other.capacity }

/-- The operator `operator=(const CustomVector& other)` with another object as `other`. -/
def CustomVector.assign (v other : CustomVector) : CustomVector :=
  v.clearAll.copyFrom other

/-! ## C strings -/

/-- The bytes of a string literal. -/
def bytes (s : String) : List Nat := s.toList.map Char.toNat

/-- Reading `*p` for a `char* p` at offset `p` of the storage `mem`. -/
def deref (mem : Storage) (p : Nat) : Except Error Nat :=
  match mem[p]? with
  | some (some b) => .ok b
  | _ => .error .undefinedBehaviour

/-- The C string that starts at the first slot of `mem`: the bytes before the first zero byte.
Running off the allocation or onto an indeterminate slot before a zero byte is undefined. -/
def cstring : Storage → Except Error (List Nat)
  | [] => .error .undefinedBehaviour
  | none :: _ => .error .undefinedBehaviour
  | some b :: rest =>
    if b = 0 then .ok []
    else
      match cstring rest with
      | .ok bs => .ok (b :: bs)
      | .error e => .error e

/-- The C string a `char*` at offset `p` of `mem` points to. -/
def cstringAt (mem : Storage) (p : Nat) : Except Error (List Nat) := cstring (mem.drop p)

/-- Offset of the first occurrence of `needle` in `hay`, if there is one. -/
def findFirst (needle : List Nat) : List Nat → Option Nat
  | [] => if needle.isPrefixOf [] then some 0 else none
  | h :: hs =>
    if needle.isPrefixOf (h :: hs) then some 0
    else
      match findFirst needle hs with
      | some k => some (k + 1)
      | none => none

/-- The call `strstr(p, needle)` for a `char* p` at offset `p` of `mem`: a pointer (offset) to
the first occurrence of the string `needle` in the string at `p`, or null. -/
def strstr (mem : Storage) (p : Nat) (needle : List Nat) : Except Error (Option Nat) :=
  match cstringAt mem p with
  | .ok hay =>
    match findFirst needle hay with
    | some k => .ok (some (p + k))
    | none => .ok none
  | .error e => .error e

/-- The call `strcmp(a, b)` on two strings: the difference of the first pair of bytes that
differ, taken as unsigned bytes, the terminator being the byte 0. -/
def strcmp : List Nat → List Nat → Int
  | [], [] => 0
  | [], b :: _ => 0 - (b : Int)
  | a :: _, [] => (a : Int) - 0
  | a :: as, b :: bs => if a = b then strcmp as bs else (a : Int) - (b : Int)

/-- The loop `for (i = 0; i < length; ++i) result.push_back(read[i]);`, started at `i`. -/
def pushRange (mem : Storage) (read : Nat) : Nat → Nat → CustomVector → Except Error CustomVector
  | 0, _, result => .ok result
  | n + 1, i, result =>
    match deref mem (read + i) with
    | .ok b => pushRange mem read n (i + 1) (result.push_back b)
    | .error e => .error e

/-- The loop `while (*read) { result.push_back(*read); read++; }` on the storage that starts at
`read`. -/
def pushCString : Storage → CustomVector → Except Error CustomVector
  | [], _ => .error .undefinedBehaviour
  | none :: _, _ => .error .undefinedBehaviour
  | some b :: rest, result => if b = 0 then .ok result else pushCString rest (result.push_back b)

/-- The loop `for (i = 0; i < result.getSize(); ++i) data.push_back(result[i]);`, with `n`
rounds left at index `i`. -/
def pushFrom (result : CustomVector) : Nat → Nat → CustomVector → Except Error CustomVector
  | 0, _, data => .ok data
  | n + 1, i, data =>
    match result.subscript i with
    | .ok b => pushFrom result n (i + 1) (data.push_back b)
    | .error e => .error e

/-! ## The transforms -/

/-- The constant `TextTransform::maxLines`. -/
def maxLines : Nat := 1000

/-- The constant `TextTransform::maxLineLen`. -/
def maxLineLen : Nat := 1000

/-- The number of values of `size_t`. -/
def sizeMod : Nat := 2 ^ 64

/-- The largest `int`. -/
def intMax : Nat := 2 ^ 31 - 1

namespace RemoveString

/-- The loop `while (*read) { ... }` of `RemoveString::apply`; one unit of fuel per round. -/
def loop (mem : Storage) (strToRemove : List Nat) :
    Nat → Nat → CustomVector → Except Error CustomVector
  | 0, _, _ => .error .outOfFuel
  | fuel + 1, read, result =>
    match deref mem read with
    | .error e => .error e
    | .ok c =>
      if c = 0 then .ok result
      else
        match strstr mem read strToRemove with
        | .error e => .error e
        | .ok (some m) =>
          let length := m - read
          match pushRange mem read length 0 result with
          | .error e => .error e
          | .ok result => loop mem strToRemove fuel (m + strToRemove.length) result
        | .ok none => pushCString (mem.drop read) result

/-- The method `RemoveString::apply`. Every round of the loop but the last moves `read` forward
by at least the length of `strToRemove`, so that `read` cannot move more often than the storage
has slots unless `strToRemove` is empty, in which case the loop never ends. -/
def apply (strToRemove : List Nat) (data : CustomVector) : Except Error CustomVector :=
  match loop data.getData strToRemove (data.getData.length + 1) 0 CustomVector.empty with
  | .error e => .error e
  | .ok result => pushFrom result result.getSize 0 data.clear

end RemoveString

namespace ReplaceString

/-- The loop `for (j = 0; j < oldStrLen; ++j) if (data[i + j] != oldStr[j]) { isMatch = false;
break; }`, over the bytes of `oldStr` that are left at index `j`. -/
def isMatch (data : CustomVector) (i : Nat) : List Nat → Nat → Except Error Bool
  | [], _ => .ok true
  | o :: os, j =>
    match data.subscript (i + j) with
    | .error e => .error e
    | .ok b => if b ≠ o then .ok false else isMatch data i os (j + 1)

/-- The loop `for (size_t i = 0; i < dataSize; ++i) { ... }` of `ReplaceString::apply`, in
`size_t` arithmetic; one unit of fuel per round. -/
def loop (data : CustomVector) (oldStr newStr : List Nat) (dataSize : Nat) :
    Nat → Nat → CustomVector → Except Error CustomVector
  | 0, _, _ => .error .outOfFuel
  | fuel + 1, i, result =>
    if i < dataSize then
      if (i + oldStr.length) % sizeMod ≤ dataSize then
        match isMatch data i oldStr 0 with
        | .error e => .error e
        | .ok true =>
          let result := result.pushAll newStr
          let i := (i + (oldStr.length + sizeMod - 1) % sizeMod) % sizeMod
          loop data oldStr newStr dataSize fuel ((i + 1) % sizeMod) result
        | .ok false =>
          match data.subscript i with
          | .error e => .error e
          | .ok b => loop data oldStr newStr dataSize fuel ((i + 1) % sizeMod) (result.push_back b)
      else
        match data.subscript i with
        | .error e => .error e
        | .ok b => loop data oldStr newStr dataSize fuel ((i + 1) % sizeMod) (result.push_back b)
    else .ok result

/-- The method `ReplaceString::apply`; `none` is a null `oldStr` or `newStr`. With a non-empty
`oldStr` every round moves `i` forward, so `dataSize + 1` rounds are enough. -/
def apply (oldStr newStr : Option (List Nat)) (data : CustomVector) :
    Except Error CustomVector :=
  match oldStr, newStr with
  | some oldStr, some newStr =>
    let dataSize := data.getSize
    match loop data oldStr newStr dataSize (dataSize + 1) 0 CustomVector.empty with
    | .error e => .error e
    | .ok result => pushFrom result result.getSize 0 data.clear
  | _, _ => .ok data

/-- The replacement as the specification words it: leftmost first, without overlap. -/
def replaceAll (old new : List Nat) : List Nat → List Nat
  | [] => []
  | y :: ys =>
    if old ≠ [] ∧ old.isPrefixOf (y :: ys) then
      new ++ replaceAll old new ((y :: ys).drop old.length)
    else y :: replaceAll old new ys
termination_by l => l.length
decreasing_by
  all_goals simp_wf
  · rename_i h
    have : 0 < old.length := List.length_pos.mpr h.1
    omega

end ReplaceString

namespace RemoveNewline

/-- The loop `for (size_t i = 0; i < data.getSize(); i++) { ... }` of `RemoveNewline::apply`,
with `n` rounds left at index `i`; it returns `resIndex` and the buffer. -/
def loop : Nat → Nat → Nat → CustomVector → Except Error (Nat × CustomVector)
  | 0, _, resIndex, data => .ok (resIndex, data)
  | n + 1, i, resIndex, data =>
    match data.subscript i with
    | .error e => .error e
    | .ok currentChar =>
      if currentChar ≠ 10 then
        match data.subscriptAssign resIndex currentChar with
        | (.ok _, data) => loop n (i + 1) (resIndex + 1) data
        | (.error e, _) => .error e
      else loop n (i + 1) resIndex data

/-- The method `RemoveNewline::apply`. -/
def apply (data : CustomVector) : Except Error CustomVector :=
  match loop data.getSize 0 0 data with
  | .error e => .error e
  | .ok (resIndex, data) => .ok (data.resize resIndex)

end RemoveNewline

/-- The digits `"%d"` prints for a value that is not negative, most significant first, put in
front of `acc`. -/
def decimalDigits : Nat → Nat → List Nat → List Nat
  | 0, _, acc => acc
  | fuel + 1, n, acc =>
    if n / 10 = 0 then (48 + n % 10) :: acc
    else decimalDigits fuel (n / 10) ((48 + n % 10) :: acc)

/-- The string `snprintf(buf, size, "%d", value)` leaves in `buf`. -/
def snprintf_d (size : Nat) (value : Int) : List Nat :=
  let text :=
    if value < 0 then 45 :: decimalDigits (value.natAbs + 1) value.natAbs []
    else decimalDigits (value.toNat + 1) value.toNat []
  text.take (size - 1)

namespace CountSymbols

/-- The loop `while (*read) { numSymbols++; read++; }` on the storage that starts at `read`;
incrementing the largest `int` is undefined. -/
def count : Storage → Nat → Except Error Nat
  | [], _ => .error .undefinedBehaviour
  | none :: _, _ => .error .undefinedBehaviour
  | some b :: rest, numSymbols =>
    if b = 0 then .ok numSymbols
    else if numSymbols = intMax then .error .undefinedBehaviour
    else count rest (numSymbols + 1)

/-- The method `CountSymbols::apply`. -/
def apply (data : CustomVector) : Except Error CustomVector :=
  match count data.getData 0 with
  | .error e => .error e
  | .ok numSymbols =>
    let numSymbolsStr := snprintf_d 16 (numSymbols : Int)
    .ok (data.clear.pushAll numSymbolsStr)

end CountSymbols

/-! ## The pipeline -/

/-- The abstract class `TextTransform`: its one virtual method. -/
structure TextTransform where
  apply : CustomVector → Except Error CustomVector

/-- The loop `for (int i = 0; i < numTransformations; ++i) transformations[i]->apply(concatData);`
with `n` rounds left at index `i`. -/
def applyLoop (transformations : List TextTransform) :
    Nat → Nat → CustomVector → Except Error CustomVector
  | 0, _, concatData => .ok concatData
  | n + 1, i, concatData =>
    match transformations[i]? with
    | none => .error .undefinedBehaviour
    | some t =>
      match t.apply concatData with
      | .error e => .error e
      | .ok concatData => applyLoop transformations n (i + 1) concatData

/-- The method `TextProcessor::applyTransformations` on the member `concatData`. -/
def applyTransformations (transformations : List TextTransform) (concatData : CustomVector) :
    Except Error CustomVector :=
  applyLoop transformations transformations.length 0 concatData

/-- The method `TextProcessor::concatenate(const char* data)` on the member `concatData`, for
the string in the storage `data` of a source: `strlen(data)` bytes are appended, the terminator
is not; the counter `i` is an `int`. -/
def concatenate (concatData : CustomVector) (data : Storage) : Except Error CustomVector :=
  match cstringAt data 0 with
  | .error e => .error e
  | .ok s =>
    let dataLen := s.length
    if dataLen > intMax then .error .undefinedBehaviour
    else pushRange data 0 dataLen 0 concatData

/-- The buffer is well formed and its storage starts with the bytes `t`, none of them zero,
followed by a zero byte. -/
def NullTerminated (v : CustomVector) (t : List Nat) : Prop :=
  v.capacity = v.data.length ∧ v.size ≤ v.capacity ∧
    v.data.take (t.length + 1) = t.map some ++ [some 0] ∧ 0 ∉ t

instance (v : CustomVector) (t : List Nat) : Decidable (NullTerminated v t) := by
  unfold NullTerminated; infer_instance

/-- The left fold of a buffer through a list of transforms: each transform is applied to the
buffer the one before it returned, and a transform that does not return ends the fold. -/
def foldTransforms : List TextTransform → CustomVector → Except Error CustomVector
  | [], v => .ok v
  | t :: ts, v =>
    match t.apply v with
    | .ok v => foldTransforms ts v
    | .error e => .error e

/-- The decimal ASCII text of a natural number: its digits, most significant first, without a
leading zero, and the one digit `0` for zero. -/
def decimalAscii (n : Nat) : List Nat :=
  if n = 0 then [48] else (Nat.digits 10 n).reverse.map (fun d => 48 + d)

/-! ## Lines -/

/-- The call `strspn(s, delim)` on the storage that starts at `s`: the number of leading bytes
that are in `delim`. -/
def strspn (delim : List Nat) : Storage → Except Error Nat
  | [] => .error .undefinedBehaviour
  | none :: _ => .error .undefinedBehaviour
  | some b :: rest =>
    if b ≠ 0 ∧ b ∈ delim then
      match strspn delim rest with
      | .ok k => .ok (k + 1)
      | .error e => .error e
    else .ok 0

/-- The call `strcspn(s, delim)` on the storage that starts at `s`: the number of leading bytes
that are neither in `delim` nor the terminator. -/
def strcspn (delim : List Nat) : Storage → Except Error Nat
  | [] => .error .undefinedBehaviour
  | none :: _ => .error .undefinedBehaviour
  | some b :: rest =>
    if b = 0 ∨ b ∈ delim then .ok 0
    else
      match strcspn delim rest with
      | .ok k => .ok (k + 1)
      | .error e => .error e

/-- The call `strtok(s, delim)`, where `s` is the offset the scan starts at: the argument of
the first call, the pointer the previous call saved for a call with a null argument. It returns
the token (or null), the pointer it saves and the storage, in which the delimiter that ends the
token has been overwritten by a zero byte. -/
def strtok (mem : Storage) (s : Nat) (delim : List Nat) :
    Except Error (Option Nat × Nat × Storage) :=
  match strspn delim (mem.drop s) with
  | .error e => .error e
  | .ok k =>
    let token := s + k
    match deref mem token with
    | .error e => .error e
    | .ok c =>
      if c = 0 then .ok (none, token, mem)
      else
        match strcspn delim (mem.drop token) with
        | .error e => .error e
        | .ok n =>
          let e := token + n
          match deref mem e with
          | .error err => .error err
          | .ok c =>
            if c = 0 then .ok (some token, e, mem)
            else .ok (some token, e + 1, mem.set e (some 0))

/-- The call `std::sort(first, last, comp)` on a range of `int`: the standard fixes the result
as a permutation of the range that is sorted with respect to `comp`, not the algorithm; here it
is an insertion sort that puts `a` before `b` unless `comp b a`. -/
def stdSort (comp : Nat → Nat → Bool) (range : List Nat) : List Nat :=
  range.insertionSort (fun a b => comp b a = false)

/-- The loop `for (int i = 0; i < numLines; i++) { const char* line = row(i); while (*line)
{ data.push_back(*line); line++; } if (i < numLines - 1) data.push_back('\n'); }` with `n`
rounds left at index `i`; a row is the string stored in it. -/
def emitLoop (row : Nat → Option (List Nat)) (numLines : Nat) :
    Nat → Nat → CustomVector → Except Error CustomVector
  | 0, _, data => .ok data
  | n + 1, i, data =>
    match row i with
    | none => .error .undefinedBehaviour
    | some line =>
      let data := data.pushAll line
      let data := if (i : Int) < (numLines : Int) - 1 then data.push_back 10 else data
      emitLoop row numLines n (i + 1) data

namespace LexSortLines

/-- The loop `while (token != nullptr) { strcpy(lines[numLines], token); lineIndices[numLines]
= numLines; numLines++; token = strtok(nullptr, "\n"); }`; `lines` are the rows written so far,
`numLines` of them, and a `strcpy` that does not stay within row `numLines` of the table is
undefined. One unit of fuel per round. -/
def split : Nat → Storage → Option Nat → Nat → List (List Nat) →
    Except Error (List (List Nat) × Storage)
  | 0, _, _, _, _ => .error .outOfFuel
  | _ + 1, mem, none, _, lines => .ok (lines, mem)
  | fuel + 1, mem, some token, save, lines =>
    match cstringAt mem token with
    | .error e => .error e
    | .ok line =>
      if lines.length < maxLines ∧ line.length < maxLineLen then
        match strtok mem save [10] with
        | .error e => .error e
        | .ok (token, save, mem) => split fuel mem token save (lines ++ [line])
      else .error .undefinedBehaviour

/-- The method `LexSortLines::apply`. Every round of the first loop consumes a token of at
least one byte, so it has fewer rounds than the storage has slots. -/
def apply (data : CustomVector) : Except Error CustomVector :=
  match strtok data.getData 0 [10] with
  | .error e => .error e
  | .ok (token, save, mem) =>
    match split (mem.length + 1) mem token save [] with
    | .error e => .error e
    | .ok (lines, mem) =>
      let numLines := lines.length
      let lineIndices := stdSort
        (fun a b => decide (strcmp (lines.getD a []) (lines.getD b []) < 0)) (List.range numLines)
      let data := { data with data := mem }.clear
      emitLoop (fun i => match lineIndices[i]? with
        | some a => lines[a]?
        | none => none) numLines numLines 0 data

end LexSortLines

namespace RemoveDuplicateLines

/-- The loop `for (int i = 0; i < numLines; i++) if (strcmp(token, lines[i]) == 0)
{ isDuplicate = true; break; }` over the rows written so far. -/
def isDuplicate (token : List Nat) : List (List Nat) → Bool
  | [] => false
  | line :: lines => if strcmp token line = 0 then true else isDuplicate token lines

/-- The loop `while (token != nullptr && numLines < maxLines) { ... }` of
`RemoveDuplicateLines::apply`; one unit of fuel per round. -/
def split : Nat → Storage → Option Nat → Nat → List (List Nat) →
    Except Error (List (List Nat) × Storage)
  | 0, _, _, _, _ => .error .outOfFuel
  | _ + 1, mem, none, _, lines => .ok (lines, mem)
  | fuel + 1, mem, some token, save, lines =>
    if lines.length < maxLines then
      match cstringAt mem token with
      | .error e => .error e
      | .ok line =>
        if isDuplicate line lines then
          match strtok mem save [10] with
          | .error e => .error e
          | .ok (token, save, mem) => split fuel mem token save lines
        else if line.length < maxLineLen then
          match strtok mem save [10] with
          | .error e => .error e
          | .ok (token, save, mem) => split fuel mem token save (lines ++ [line])
        else .error .undefinedBehaviour
    else .ok (lines, mem)

/-- The method `RemoveDuplicateLines::apply`. -/
def apply (data : CustomVector) : Except Error CustomVector :=
  match strtok data.getData 0 [10] with
  | .error e => .error e
  | .ok (token, save, mem) =>
    match split (mem.length + 1) mem token save [] with
    | .error e => .error e
    | .ok (lines, mem) =>
      let numLines := lines.length
      let data := { data with data := mem }.clear
      emitLoop (fun i => lines[i]?) numLines numLines 0 data

/-- One round of the loop on the table: a line that is in the table is skipped, another one is
put behind the last row. -/
def step (acc : List (List Nat)) (l : List Nat) : List (List Nat) :=
  if l ∈ acc then acc else acc ++ [l]

/-- The first occurrence of every line, in the order of the list. -/
def firstOccurrences : List (List Nat) → List (List Nat)
  | [] => []
  | l :: ls => l :: (firstOccurrences ls).filter (fun k => k ≠ l)

end RemoveDuplicateLines

namespace RemoveLines

/-- The method `RemoveLines::appendString(dest, str)` on the storage that starts at `str`. -/
def appendString (dest : CustomVector) (str : Storage) : Except Error CustomVector :=
  pushCString str dest

/-- The loop `while (token != nullptr && numLines < maxLines) { ... }` of `RemoveLines::apply`;
one unit of fuel per round. -/
def loop (substring : List Nat) : Nat → Storage → Option Nat → Nat → Nat → CustomVector →
    Except Error (CustomVector × Storage)
  | 0, _, _, _, _, _ => .error .outOfFuel
  | _ + 1, mem, none, _, _, result => .ok (result, mem)
  | fuel + 1, mem, some token, save, numLines, result =>
    if numLines < maxLines then
      match strstr mem token substring with
      | .error e => .error e
      | .ok none =>
        match appendString result (mem.drop token) with
        | .error e => .error e
        | .ok result =>
          let result := result.push_back 10
          match strtok mem save [10] with
          | .error e => .error e
          | .ok (token, save, mem) => loop substring fuel mem token save (numLines + 1) result
      | .ok (some _) =>
        match strtok mem save [10] with
        | .error e => .error e
        | .ok (token, save, mem) => loop substring fuel mem token save numLines result
    else .ok (result, mem)

/-- The method `RemoveLines::apply`. -/
def apply (substring : List Nat) (data : CustomVector) : Except Error CustomVector :=
  match strtok data.getData 0 [10] with
  | .error e => .error e
  | .ok (token, save, mem) =>
    match loop substring (mem.length + 1) mem token save 0 empty with
    | .error e => .error e
    | .ok (result, mem) =>
      let data := { data with data := mem }.clear
      .ok (data.assign result)

end RemoveLines

namespace RemoveCharacter

/-- The loop `while (read < data.getSize()) { if (data[read] != charToRemove) { data[write] =
data[read]; ++write; } ++read; }` with `n` rounds left; it returns `write` and the buffer. -/
def loop (charToRemove : Nat) : Nat → Nat → Nat → CustomVector → Except Error (Nat × CustomVector)
  | 0, _, write, data => .ok (write, data)
  | n + 1, read, write, data =>
    match data.subscript read with
    | .error e => .error e
    | .ok c =>
      if c ≠ charToRemove then
        match data.subscript read with
        | .error e => .error e
        | .ok c =>
          match data.subscriptAssign write c with
          | (.ok _, data) => loop charToRemove n (read + 1) (write + 1) data
          | (.error e, _) => .error e
      else loop charToRemove n (read + 1) write data

/-- The method `RemoveCharacter::apply`. -/
def apply (charToRemove : Nat) (data : CustomVector) : Except Error CustomVector :=
  match loop charToRemove data.getSize 0 0 data with
  | .error e => .error e
  | .ok (write, data) => .ok (data.resize write)

end RemoveCharacter

/-- The call `ispunct(c)` in the "C" locale: the printable ASCII characters that are neither a
space nor a letter nor a digit; no byte from 128 on is one. -/
def ispunct (c : Nat) : Bool :=
  decide ((33 ≤ c ∧ c ≤ 47) ∨ (58 ≤ c ∧ c ≤ 64) ∨ (91 ≤ c ∧ c ≤ 96) ∨ (123 ≤ c ∧ c ≤ 126))

namespace RemovePunctuation

/-- The loop `while (*read) { if (!ispunct(*read)) { result.push_back(*read); } read++; }` on
the storage that starts at `read`. -/
def scan : Storage → CustomVector → Except Error CustomVector
  | [], _ => .error .undefinedBehaviour
  | none :: _, _ => .error .undefinedBehaviour
  | some b :: rest, result =>
    if b = 0 then .ok result
    else if !ispunct b then scan rest (result.push_back b)
    else scan rest result

/-- The method `RemovePunctuation::apply`. -/
def apply (data : CustomVector) : Except Error CustomVector :=
  match scan data.getData empty with
  | .error e => .error e
  | .ok result => pushFrom result result.getSize 0 data.clear

end RemovePunctuation

namespace AddNewlineSentence

/-- The loop `for (size_t i = 0; i < length; i++) { ... }` of `AddNewlineSentence::apply`, with
`n` rounds left at index `i`; `length - 1` is a `size_t`. -/
def loop (data : CustomVector) (length : Nat) :
    Nat → Nat → CustomVector → Except Error CustomVector
  | 0, _, result => .ok result
  | n + 1, i, result =>
    match data.subscript i with
    | .error e => .error e
    | .ok currChar =>
      let result := result.push_back currChar
      if currChar = 46 ∨ currChar = 33 ∨ currChar = 63 then
        if i < (length + sizeMod - 1) % sizeMod then
          match data.subscript (i + 1) with
          | .error e => .error e
          | .ok nextChar =>
            if nextChar ≠ 10 ∧ nextChar ≠ 46 ∧ nextChar ≠ 0 then
              loop data length n (i + 1) (result.push_back 10)
            else loop data length n (i + 1) result
        else loop data length n (i + 1) result
      else loop data length n (i + 1) result

/-- The method `AddNewlineSentence::apply`. -/
def apply (data : CustomVector) : Except Error CustomVector :=
  let length := data.getSize
  match loop data length length 0 empty with
  | .error e => .error e
  | .ok result => pushFrom result result.getSize 0 data.clear

end AddNewlineSentence

/-- A call of one of the methods that change a buffer. -/
inductive BufferOp where
  | push_back (c : Nat)
  | insert (p : Nat) (value : Nat)
  | resize (newSize : Nat)
  | clear
deriving DecidableEq, Repr

/-- The buffer after the call `op`; an `insert` that throws leaves the buffer as it was. -/
def BufferOp.run (op : BufferOp) (v : CustomVector) : CustomVector :=
  match op with
  | .push_back c => v.push_back c
  | .insert p value => (v.insert (v.begin.add p) value).2
  | .resize newSize => v.resize newSize
  | .clear => v.clear

/-- The buffer after the calls `ops`, made one after the other. -/
def runOps : List BufferOp → CustomVector → CustomVector
  | [], v => v
  | op :: ops, v => runOps ops (op.run v)

namespace AddNewlineMaxChars

/-- The cast `static_cast<size_t>(maxCharsK)` of an `int`. -/
def castSize (maxCharsK : Int) : Nat := (maxCharsK % (sizeMod : Int)).toNat

/-- The loop `for (size_t j = i; j > 0; j--) { if (data[j] == ' ' || data[j] == '\n')
{ data.insert(data.begin() + j, '\n'); currLineLen = i - j; break; } }`, at `j`; it returns
`currLineLen` and the buffer. Both tests read the same byte `data[j]`. -/
def scanBack (i : Nat) : Nat → Nat → CustomVector → Except Error (Nat × CustomVector)
  | 0, currLineLen, data => .ok (currLineLen, data)
  | j + 1, currLineLen, data =>
    match data.subscript (j + 1) with
    | .error e => .error e
    | .ok c =>
      if c = 32 ∨ c = 10 then
        match data.insert (data.begin.add (j + 1)) 10 with
        | (.ok _, data) => .ok (i - (j + 1), data)
        | (.error e, _) => .error e
      else scanBack i j currLineLen data

/-- The body of the loop `for (size_t i = 0; i < data.getSize(); i++)` of
`AddNewlineMaxChars::apply` at index `i`; it returns `currLineLen` and the buffer. -/
def round (maxCharsK : Int) (i currLineLen : Nat) (data : CustomVector) :
    Except Error (Nat × CustomVector) :=
  match data.subscript i with
  | .error e => .error e
  | .ok currentChar =>
    let currLineLen := if currentChar ≠ 10 then currLineLen + 1 else currLineLen
    if currLineLen ≥ castSize maxCharsK then scanBack i i currLineLen data
    else .ok (currLineLen, data)

/-- The loop `for (size_t i = 0; i < data.getSize(); i++)` of `AddNewlineMaxChars::apply`; the
size is read again before every round, and every round takes one unit of fuel. -/
def loop (maxCharsK : Int) : Nat → Nat → Nat → CustomVector → Except Error CustomVector
  | 0, _, _, _ => .error .outOfFuel
  | fuel + 1, i, currLineLen, data =>
    if i < data.getSize then
      match round maxCharsK i currLineLen data with
      | .error e => .error e
      | .ok (currLineLen, data) => loop maxCharsK fuel (i + 1) currLineLen data
    else .ok data

/-- The method `AddNewlineMaxChars::apply`, run for at most `fuel` rounds of its loop: a round
can make the buffer one byte longer, so the size at the start bounds nothing. -/
def apply (maxCharsK : Int) (fuel : Nat) (data : CustomVector) : Except Error CustomVector :=
  loop maxCharsK fuel 0 0 data

end AddNewlineMaxChars

namespace AddNewlineMaxChars

/-- The index `i`, `currLineLen` and the buffer after `k` rounds of the loop of
`AddNewlineMaxChars::apply`, or after its last round when it ends before that. -/
def afterRounds (maxCharsK : Int) :
    Nat → Nat → Nat → CustomVector → Except Error (Nat × Nat × CustomVector)
  | 0, i, currLineLen, data => .ok (i, currLineLen, data)
  | k + 1, i, currLineLen, data =>
    if i < data.getSize then
      match round maxCharsK i currLineLen data with
      | .error e => .error e
      | .ok (currLineLen, data) => afterRounds maxCharsK k (i + 1) currLineLen data
    else .ok (i, currLineLen, data)

end AddNewlineMaxChars

/-! ## Words of the specification -/

/-- A line of a text: not empty, without a newline and without a zero byte. -/
def GoodLine (l : List Nat) : Prop := l ≠ [] ∧ 10 ∉ l ∧ 0 ∉ l

instance (l : List Nat) : Decidable (GoodLine l) := by
  unfold GoodLine; infer_instance

/-- The lines that `RemoveLines(needle)` keeps: those that do not contain the needle. -/
def keptLines (needle : List Nat) (ls : List (List Nat)) : List (List Nat) :=
  ls.filter (fun l => decide (¬ needle <:+: l))

/-- Every line followed by a newline. -/
def terminateLines (ls : List (List Nat)) : List Nat :=
  (ls.map (fun l => l ++ [10])).flatten

/-- The index `i` of `xs` is followed by a new line break: the byte at `i` is `.`, `!` or `?`,
there is a byte at `i + 1`, and that byte is no newline, no `.` and no zero byte. -/
def breakAfter (xs : List Nat) (i : Nat) : Bool :=
  match xs[i]?, xs[i + 1]? with
  | some x, some y => decide ((x = 46 ∨ x = 33 ∨ x = 63) ∧ y ≠ 10 ∧ y ≠ 46 ∧ y ≠ 0)
  | _, _ => false

/-- The bytes of `xs` from index `i` on, `n` of them, each followed by a newline exactly when
`breakAfter` says so. -/
def withBreaksFrom (xs : List Nat) : Nat → Nat → List Nat
  | 0, _ => []
  | n + 1, i =>
    match xs[i]? with
    | some x => (if breakAfter xs i then [x, 10] else [x]) ++ withBreaksFrom xs n (i + 1)
    | none => []

/-- The text `xs` with a newline put after every index that `breakAfter` selects. -/
def withSentenceBreaks (xs : List Nat) : List Nat := withBreaksFrom xs xs.length 0

/-- The text `ys` is the text `xs`, or `xs` with one newline put in front of an index that
holds a space or a newline. -/
def SameOrNewlineInserted (xs ys : List Nat) : Prop :=
  ys = xs ∨ ∃ p, p < xs.length ∧ (xs[p]? = some 32 ∨ xs[p]? = some 10) ∧
    ys = xs.take p ++ [10] ++ xs.drop p

/-! ## The copy loops -/

theorem copyLoop_length (src : Storage) (shift : Nat) (n : Nat) :
    ∀ (dst : Storage) (i : Nat), (copyLoop src dst shift i n).length = dst.length := by
  induction n with
  | zero => intro dst i; simp [copyLoop]
  | succ n ih => intro dst i; simp [copyLoop, ih]

theorem copyLoop_getElem? (src : Storage) (shift : Nat) (n : Nat) :
    ∀ (dst : Storage) (i k : Nat), i + n ≤ src.length →
      (copyLoop src dst shift i n)[k]? =
        if i + shift ≤ k ∧ k < i + shift + n ∧ k < dst.length then src[k - shift]? else dst[k]? := by
  induction n with
  | zero =>
    intro dst i k _
    rw [copyLoop, if_neg (by omega)]
  | succ n ih =>
    intro dst i k h
    rw [copyLoop, ih _ _ _ (by omega), List.length_set, List.getElem?_set]
    have hi : i < src.length := by omega
    by_cases h1 : i + shift = k
    · subst h1
      have e : i + shift - shift = i := by omega
      by_cases h2 : i + shift < dst.length
      · have c1 : ¬ (i + 1 + shift ≤ i + shift ∧ i + shift < i + 1 + shift + n ∧
            i + shift < dst.length) := by omega
        have c2 : i + shift ≤ i + shift ∧ i + shift < i + shift + (n + 1) ∧
            i + shift < dst.length := by omega
        simp only [c1, c2, if_true, if_false, h2, and_self, e]
        simp [List.getElem?_eq_getElem hi]
      · have c1 : ¬ (i + 1 + shift ≤ i + shift ∧ i + shift < i + 1 + shift + n ∧
            i + shift < dst.length) := by omega
        have c2 : ¬ (i + shift ≤ i + shift ∧ i + shift < i + shift + (n + 1) ∧
            i + shift < dst.length) := by omega
        rw [if_neg c1, if_neg c2, if_neg h2, if_pos rfl]
        exact (List.getElem?_eq_none (Nat.le_of_not_lt h2)).symm
    · simp only [h1, if_false]
      by_cases c : i + 1 + shift ≤ k ∧ k < i + 1 + shift + n ∧ k < dst.length
      · have c2 : i + shift ≤ k ∧ k < i + shift + (n + 1) ∧ k < dst.length := by omega
        simp only [c, c2, and_self, if_true]
      · have c2 : ¬ (i + shift ≤ k ∧ k < i + shift + (n + 1) ∧ k < dst.length) := by omega
        simp only [c, c2, if_false]

theorem shiftLoop_length (n : Nat) :
    ∀ (data : Storage) (i : Nat), (shiftLoop data i n).length = data.length := by
  induction n with
  | zero => intro data i; simp [shiftLoop]
  | succ n ih => intro data i; simp [shiftLoop, ih]

theorem shiftLoop_getElem? (n : Nat) :
    ∀ (data : Storage) (i k : Nat), n ≤ i → i < data.length →
      (shiftLoop data i n)[k]? = if i - n < k ∧ k ≤ i then data[k - 1]? else data[k]? := by
  induction n with
  | zero =>
    intro data i k _ _
    rw [shiftLoop, if_neg (by omega)]
  | succ n ih =>
    intro data i k h hi
    rw [shiftLoop, ih _ _ _ (by omega) (by simp; omega)]
    simp only [List.getElem?_set, List.getD_eq_getElem?_getD]
    have hi1 : i - 1 < data.length := by omega
    by_cases h1 : i = k
    · subst h1
      have c1 : ¬ (i - 1 - n < i ∧ i ≤ i - 1) := by omega
      have c2 : i - (n + 1) < i ∧ i ≤ i := by omega
      simp [c1, c2, hi, List.getElem?_eq_getElem hi1]
    · by_cases c : i - 1 - n < k ∧ k ≤ i - 1
      · have c2 : i - (n + 1) < k ∧ k ≤ i := by omega
        have c3 : ¬ (i = k - 1) := by omega
        simp [c, c2, c3, h1]
      · have c2 : ¬ (i - (n + 1) < k ∧ k ≤ i) := by omega
        simp [c, c2, h1]

/-! ## The buffer -/

namespace CustomVector

theorem holds_iff (v : CustomVector) (xs : List Nat) :
    Holds v xs ↔ v.capacity = v.data.length ∧ v.size = xs.length ∧ v.size ≤ v.data.length ∧
      ∀ k, k < v.size → v.data[k]? = some xs[k]? := by
  unfold Holds
  constructor
  · rintro ⟨h1, h2, h3⟩
    have hl : v.size ≤ v.data.length := by
      have := congrArg List.length h3
      simp only [List.length_take, List.length_map] at this
      omega
    refine ⟨h1, h2, hl, fun k hk => ?_⟩
    have := congrArg (fun l => l[k]?) h3
    simp only [List.getElem?_take, hk, if_true, List.getElem?_map] at this
    rw [this, List.getElem?_eq_getElem (by omega)]
    rfl
  · rintro ⟨h1, h2, h3, h4⟩
    refine ⟨h1, h2, List.ext_getElem? fun k => ?_⟩
    rw [List.getElem?_take, List.getElem?_map]
    by_cases hk : k < v.size
    · rw [if_pos hk, h4 k hk, List.getElem?_eq_getElem (by omega)]
      rfl
    · rw [if_neg hk, List.getElem?_eq_none (by omega)]
      rfl

theorem holds_empty : Holds empty [] := by decide

theorem push_back_holds (v : CustomVector) (xs : List Nat) (c : Nat) (h : Holds v xs) :
    Holds (v.push_back c) (xs ++ [c]) := by
  rw [holds_iff] at h ⊢
  obtain ⟨h1, h2, h3, h4⟩ := h
  have key : ∀ k, k < v.size + 1 → (xs ++ [c])[k]? = if k < v.size then xs[k]? else some c := by
    intro k hk
    rw [List.getElem?_append]
    by_cases hk2 : k < v.size
    · rw [if_pos (by omega), if_pos hk2]
    · rw [if_neg (by omega), if_neg hk2]
      have : k - xs.length = 0 := by omega
      rw [this]; rfl
  by_cases hc : v.size = v.capacity
  · rw [push_back, if_pos hc]
    dsimp only
    generalize hN : (if v.capacity = 0 then 1 else v.capacity * 2) = N
    have hcap : v.capacity + 1 ≤ N := by
      rw [← hN]; split <;> omega
    generalize hD : (if v.data ≠ [] then copyLoop v.data (newArray N) 0 0 v.size
      else newArray N) = D
    have hlen : D.length = N := by
      rw [← hD]; split <;> simp [copyLoop_length, newArray]
    have hget : ∀ k, k < v.size → D[k]? = v.data[k]? := by
      intro k hk
      have hne : v.data ≠ [] := by
        intro e; rw [e] at h3; simp at h3; omega
      rw [← hD, if_pos hne, copyLoop_getElem? _ _ _ _ _ _ (by omega)]
      rw [if_pos (by simp [newArray]; omega)]
      rfl
    refine ⟨by simp [hlen], by simp; omega, by simp [hlen]; omega, fun k hk => ?_⟩
    simp only at hk
    rw [key k (by omega), List.getElem?_set, hlen]
    by_cases hk2 : k < v.size
    · rw [if_neg (by omega), if_pos hk2, hget k hk2]
      exact h4 k hk2
    · rw [if_pos (by omega), if_pos (by omega), if_neg hk2]
  · rw [push_back, if_neg hc]
    refine ⟨by simp [h1], by simp; omega, by simp; omega, fun k hk => ?_⟩
    simp only at hk
    rw [key k hk, List.getElem?_set]
    by_cases hk2 : k < v.size
    · rw [if_neg (by omega), if_pos hk2]
      exact h4 k hk2
    · rw [if_pos (by omega), if_pos (by omega), if_neg hk2]

theorem pushAll_holds (bs : List Nat) :
    ∀ (v : CustomVector) (xs : List Nat), Holds v xs → Holds (pushAll v bs) (xs ++ bs) := by
  induction bs with
  | nil => intro v xs h; simpa [pushAll] using h
  | cons b bs ih =>
    intro v xs h
    have := ih _ _ (push_back_holds v xs b h)
    simpa [pushAll] using this

theorem subscript_of_holds (v : CustomVector) (xs : List Nat) (h : Holds v xs) (i : Nat) :
    v.subscript i = if h : i < xs.length then .ok xs[i] else .error .indexOutOfRange := by
  rw [holds_iff] at h
  obtain ⟨_, h2, _, h4⟩ := h
  unfold subscript
  by_cases hi : i < xs.length
  · rw [if_neg (by omega), h4 i (by omega), dif_pos hi, List.getElem?_eq_getElem hi]
  · rw [if_pos (by omega), dif_neg hi]

theorem subscriptAssign_holds (v : CustomVector) (xs : List Nat) (h : Holds v xs) (i c : Nat)
    (hi : i < xs.length) :
    (v.subscriptAssign i c).1 = .ok () ∧ Holds (v.subscriptAssign i c).2 (xs.set i c) ∧
      (v.subscriptAssign i c).2.capacity = v.capacity := by
  rw [holds_iff] at h
  obtain ⟨h1, h2, h3, h4⟩ := h
  rw [subscriptAssign, if_neg (by omega), if_pos (by omega)]
  refine ⟨rfl, ?_, rfl⟩
  rw [holds_iff]
  refine ⟨by simp [h1], by simp [h2], by simp; omega, fun k hk => ?_⟩
  simp only at hk
  simp only [List.getElem?_set]
  by_cases hk2 : i = k
  · rw [if_pos hk2, if_pos hk2, if_pos (by omega), if_pos hi]
  · rw [if_neg hk2, if_neg hk2]
    exact h4 k hk

theorem insertAt_getElem? (xs : List Nat) (p b k : Nat) (hp : p ≤ xs.length) :
    (xs.take p ++ [b] ++ xs.drop p)[k]? =
      if k < p then xs[k]? else if k = p then some b else xs[k - 1]? := by
  have hl : (xs.take p).length = p := by simp; omega
  rw [List.append_assoc, List.getElem?_append, hl]
  by_cases h1 : k < p
  · rw [if_pos h1, if_pos h1, List.getElem?_take, if_pos h1]
  · rw [if_neg h1, if_neg h1]
    by_cases h2 : k = p
    · subst h2; simp
    · rw [if_neg h2]
      obtain ⟨m, hm⟩ : ∃ m, k - p = m + 1 := ⟨k - p - 1, by omega⟩
      rw [hm]
      simp only [List.singleton_append, List.getElem?_cons_succ, List.getElem?_drop]
      congr 1; omega

theorem insert_holds (v : CustomVector) (xs : List Nat) (h : Holds v xs) (p b : Nat)
    (hp : p ≤ xs.length) :
    (v.insert (v.begin.add p) b).1 = .ok () ∧
      Holds (v.insert (v.begin.add p) b).2 (xs.take p ++ [b] ++ xs.drop p) := by
  rw [holds_iff] at h
  obtain ⟨h1, h2, h3, h4⟩ := h
  have hptr : (v.begin.add p).ptr = p := by simp [begin, Iterator.add]
  have hlen : (xs.take p ++ [b] ++ xs.drop p).length = xs.length + 1 := by
    simp; omega
  by_cases hc : v.size = v.capacity
  · rw [insert, hptr]
    dsimp only
    rw [if_neg (by omega), if_pos hc]
    generalize hN : (if v.capacity = 0 then 1 else v.capacity * 2) = N
    have hcap : v.capacity + 1 ≤ N := by
      rw [← hN]; split <;> omega
    refine ⟨rfl, ?_⟩
    rw [holds_iff]
    refine ⟨by simp [copyLoop_length, newArray], by rw [hlen]; simp [h2],
      by simp [copyLoop_length, newArray]; omega, fun k hk => ?_⟩
    simp only at hk
    rw [insertAt_getElem? xs p b k hp, copyLoop_getElem? _ _ _ _ _ _ (by omega)]
    simp only [List.length_set, copyLoop_length, newArray, List.length_replicate,
      List.getElem?_set]
    by_cases k1 : k < p
    · rw [if_neg (by omega), if_neg (by omega), if_pos k1,
        copyLoop_getElem? _ _ _ _ _ _ (by omega), if_pos (by simp; omega)]
      exact h4 k (by omega)
    · rw [if_neg k1]
      by_cases k2 : k = p
      · subst k2
        rw [if_neg (by omega), if_pos rfl, if_pos (by omega), if_pos rfl]
      · rw [if_pos (by omega), if_neg k2]
        exact h4 (k - 1) (by omega)
  · rw [insert, hptr]
    dsimp only
    rw [if_neg (by omega), if_neg hc]
    refine ⟨rfl, ?_⟩
    rw [holds_iff]
    refine ⟨by simp [shiftLoop_length, h1], by rw [hlen]; simp [h2],
      by simp [shiftLoop_length]; omega, fun k hk => ?_⟩
    simp only at hk
    rw [insertAt_getElem? xs p b k hp]
    simp only [List.getElem?_set, shiftLoop_length]
    rw [shiftLoop_getElem? _ _ _ _ (by omega) (by omega)]
    by_cases k1 : k < p
    · rw [if_neg (by omega), if_neg (by omega), if_pos k1]
      exact h4 k (by omega)
    · rw [if_neg k1]
      by_cases k2 : k = p
      · subst k2
        rw [if_pos rfl, if_pos (by omega), if_pos rfl]
      · rw [if_neg (by omega), if_pos (by omega), if_neg k2]
        exact h4 (k - 1) (by omega)

theorem eraseIdx_insertAt (xs : List Nat) (b : Nat) :
    ∀ p, p ≤ xs.length → (xs.take p ++ [b] ++ xs.drop p).eraseIdx p = xs := by
  induction xs with
  | nil => intro p hp; simp at hp; subst hp; rfl
  | cons x xs ih =>
    intro p hp
    cases p with
    | zero => rfl
    | succ p =>
      have := ih p (by simpa using hp)
      simpa using this

end CustomVector

theorem clear_holds (v : CustomVector) (h : v.capacity = v.data.length) : Holds v.clear [] := by
  simp [Holds, clear, h]

theorem pushFrom_holds (result : CustomVector) (rs : List Nat) (hr : Holds result rs) (n : Nat) :
    ∀ (i : Nat) (data : CustomVector) (ds : List Nat), Holds data ds → i + n = rs.length →
      ∃ d, pushFrom result n i data = .ok d ∧ Holds d (ds ++ rs.drop i) := by
  induction n with
  | zero =>
    intro i data ds hd hi
    refine ⟨data, rfl, ?_⟩
    rw [List.drop_of_length_le (by omega), List.append_nil]
    exact hd
  | succ n ih =>
    intro i data ds hd hi
    have hlt : i < rs.length := by omega
    rw [pushFrom, subscript_of_holds _ _ hr, dif_pos hlt]
    obtain ⟨d, e1, e2⟩ := ih (i + 1) _ _ (push_back_holds data ds rs[i] hd) (by omega)
    refine ⟨d, e1, ?_⟩
    rw [List.drop_eq_getElem_cons hlt]
    simpa using e2

namespace ReplaceString

theorem replaceAll_nil (old new : List Nat) : replaceAll old new [] = [] := by
  rw [replaceAll]

theorem replaceAll_cons (old new : List Nat) (y : Nat) (ys : List Nat) :
    replaceAll old new (y :: ys) =
      if old ≠ [] ∧ old.isPrefixOf (y :: ys) then
        new ++ replaceAll old new ((y :: ys).drop old.length)
      else y :: replaceAll old new ys := by
  rw [replaceAll]

theorem isMatch_spec (data : CustomVector) (xs : List Nat) (h : Holds data xs) (i : Nat)
    (os : List Nat) :
    ∀ j, i + j + os.length ≤ xs.length →
      isMatch data i os j = .ok (os.isPrefixOf (xs.drop (i + j))) := by
  induction os with
  | nil => intro j _; simp [isMatch]
  | cons o os ih =>
    intro j hj
    simp only [List.length_cons] at hj
    have hlt : i + j < xs.length := by omega
    rw [isMatch, subscript_of_holds _ _ h, dif_pos hlt]
    dsimp only
    rw [List.drop_eq_getElem_cons hlt, List.isPrefixOf_cons₂]
    by_cases hb : xs[i + j] = o
    · rw [if_neg (by simpa using hb), ih (j + 1) (by omega)]
      simp [hb, Nat.add_assoc]
    · rw [if_pos hb]
      have : (o == xs[i + j]) = false := by simpa using Ne.symm hb
      simp [this]

theorem isPrefixOf_too_long (old ys : List Nat) (h : ys.length < old.length) :
    old.isPrefixOf ys = false := by
  by_contra hc
  have hp : old <+: ys := List.isPrefixOf_iff_prefix.mp (by simpa using hc)
  have := hp.length_le
  omega

theorem replaceString_loop_spec (data : CustomVector) (xs : List Nat) (h : Holds data xs) (old new : List Nat)
    (hold : old ≠ []) (hsz : xs.length + old.length < sizeMod) (fuel : Nat) :
    ∀ (i : Nat) (result : CustomVector) (rs : List Nat), Holds result rs → i ≤ xs.length →
      xs.length - i < fuel →
      ∃ r, loop data old new xs.length fuel i result = .ok r ∧
        Holds r (rs ++ replaceAll old new (xs.drop i)) := by
  have hpos : 0 < old.length := List.length_pos.mpr hold
  induction fuel with
  | zero => intro i result rs _ _ hf; omega
  | succ fuel ih =>
    intro i result rs hr hi hf
    rw [loop]
    by_cases hlt : i < xs.length
    · rw [if_pos hlt, Nat.mod_eq_of_lt (by omega)]
      have hdrop := List.drop_eq_getElem_cons hlt
      have hsub : data.subscript i = .ok xs[i] := by
        rw [subscript_of_holds _ _ h, dif_pos hlt]
      have hstep : (i + 1) % sizeMod = i + 1 := Nat.mod_eq_of_lt (by omega)
      have hno : old.isPrefixOf (xs.drop i) = false →
          ∃ r, (match data.subscript i with
            | .error e => (.error e : Except Error CustomVector)
            | .ok b => loop data old new xs.length fuel ((i + 1) % sizeMod)
                (result.push_back b)) = .ok r ∧
            Holds r (rs ++ replaceAll old new (xs.drop i)) := by
        intro hf2
        rw [hsub, hstep]
        obtain ⟨r, e1, e2⟩ := ih (i + 1) _ _ (push_back_holds result rs xs[i] hr)
          (by omega) (by omega)
        refine ⟨r, e1, ?_⟩
        rw [hdrop, replaceAll_cons, if_neg (by rw [← hdrop, hf2]; simp)]
        simpa using e2
      by_cases hfit : i + old.length ≤ xs.length
      · rw [if_pos hfit]
        have hm := isMatch_spec data xs h i old 0 (by omega)
        rw [Nat.add_zero] at hm
        rw [hm]
        cases hp : old.isPrefixOf (xs.drop i) with
        | true =>
          dsimp only
          have e1 : (i + (old.length + sizeMod - 1) % sizeMod) % sizeMod = i + old.length - 1 := by
            have a1 : old.length + sizeMod - 1 = old.length - 1 + sizeMod := by omega
            have a2 : (old.length - 1) % sizeMod = old.length - 1 :=
              Nat.mod_eq_of_lt (by omega)
            have a3 : (i + (old.length - 1)) % sizeMod = i + (old.length - 1) :=
              Nat.mod_eq_of_lt (by omega)
            rw [a1, Nat.add_mod_right, a2, a3]
            omega
          rw [e1, Nat.mod_eq_of_lt (by omega)]
          have e2 : i + old.length - 1 + 1 = i + old.length := by omega
          rw [e2]
          obtain ⟨r, a1, a2⟩ := ih (i + old.length) _ _ (pushAll_holds new result rs hr)
            hfit (by omega)
          refine ⟨r, a1, ?_⟩
          rw [hdrop, replaceAll_cons, if_pos ⟨hold, by rw [← hdrop]; exact hp⟩, ← hdrop,
            List.drop_drop]
          simpa [List.append_assoc] using a2
        | false => exact hno hp
      · rw [if_neg hfit]
        exact hno (isPrefixOf_too_long _ _ (by simp; omega))
    · rw [if_neg hlt]
      have : i = xs.length := by omega
      subst this
      refine ⟨result, rfl, ?_⟩
      simpa [replaceAll_nil] using hr

end ReplaceString

/-! ## Text in storage -/

theorem nullTerminated_data (v : CustomVector) (t : List Nat) (h : NullTerminated v t) :
    ∃ rest, v.data = t.map some ++ some 0 :: rest := by
  refine ⟨v.data.drop (t.length + 1), ?_⟩
  have := List.take_append_drop (t.length + 1) v.data
  rw [h.2.2.1] at this
  simpa using this.symm

theorem text_drop (t : List Nat) (rest : Storage) (p : Nat) (hp : p ≤ t.length) :
    (t.map some ++ some 0 :: rest).drop p = (t.drop p).map some ++ some 0 :: rest := by
  rw [List.drop_append_of_le_length (by simpa using hp), List.map_drop]

theorem deref_text_lt (t : List Nat) (rest : Storage) (p : Nat) (hp : p < t.length) :
    deref (t.map some ++ some 0 :: rest) p = .ok t[p] := by
  rw [deref, List.getElem?_append_left (by simpa using hp), List.getElem?_map,
    List.getElem?_eq_getElem hp]
  rfl

theorem deref_text_end (t : List Nat) (rest : Storage) :
    deref (t.map some ++ some 0 :: rest) t.length = .ok 0 := by
  rw [deref, List.getElem?_append_right (by simp)]
  simp

theorem cstring_text (ys : List Nat) (rest : Storage) (h0 : 0 ∉ ys) :
    cstring (ys.map some ++ some 0 :: rest) = .ok ys := by
  induction ys with
  | nil => simp [cstring]
  | cons y ys ih =>
    have hy : y ≠ 0 := fun e => h0 (by simp [e])
    have h0' : 0 ∉ ys := fun e => h0 (by simp [e])
    rw [List.map_cons, List.cons_append, cstring, if_neg hy, ih h0']

theorem cstringAt_text (t : List Nat) (rest : Storage) (h0 : 0 ∉ t) (p : Nat)
    (hp : p ≤ t.length) :
    cstringAt (t.map some ++ some 0 :: rest) p = .ok (t.drop p) := by
  rw [cstringAt, text_drop t rest p hp]
  exact cstring_text _ rest (fun e => h0 (List.mem_of_mem_drop e))

theorem pushCString_text (ys : List Nat) (rest : Storage) (h0 : 0 ∉ ys) :
    ∀ (result : CustomVector) (rs : List Nat), Holds result rs →
      ∃ r, pushCString (ys.map some ++ some 0 :: rest) result = .ok r ∧ Holds r (rs ++ ys) := by
  induction ys with
  | nil => intro result rs hr; exact ⟨result, by simp [pushCString], by simpa using hr⟩
  | cons y ys ih =>
    intro result rs hr
    have hy : y ≠ 0 := fun e => h0 (by simp [e])
    have h0' : 0 ∉ ys := fun e => h0 (by simp [e])
    obtain ⟨r, e1, e2⟩ := ih h0' _ _ (push_back_holds result rs y hr)
    refine ⟨r, ?_, by simpa using e2⟩
    rw [List.map_cons, List.cons_append, pushCString, if_neg hy, e1]

theorem pushRange_text (t : List Nat) (rest : Storage) (read : Nat) (n : Nat) :
    ∀ (i : Nat) (result : CustomVector) (rs : List Nat), Holds result rs →
      read + i + n ≤ t.length →
      ∃ r, pushRange (t.map some ++ some 0 :: rest) read n i result = .ok r ∧
        Holds r (rs ++ (t.drop (read + i)).take n) := by
  induction n with
  | zero => intro i result rs hr _; exact ⟨result, rfl, by simpa using hr⟩
  | succ n ih =>
    intro i result rs hr hb
    have hlt : read + i < t.length := by omega
    obtain ⟨r, e1, e2⟩ := ih (i + 1) _ _ (push_back_holds result rs t[read + i] hr) (by omega)
    refine ⟨r, ?_, ?_⟩
    · rw [pushRange, deref_text_lt t rest _ hlt]
      exact e1
    · rw [List.drop_eq_getElem_cons hlt, List.take_succ_cons]
      simpa [Nat.add_assoc] using e2

/-! ## Searching -/

theorem findFirst_some (needle : List Nat) :
    ∀ (hay : List Nat) (k : Nat), findFirst needle hay = some k →
      k + needle.length ≤ hay.length ∧ needle <+: hay.drop k := by
  intro hay
  induction hay with
  | nil =>
    intro k hk
    rw [findFirst] at hk
    split at hk
    · rename_i hp
      cases hk
      have hp' := List.isPrefixOf_iff_prefix.mp hp
      have := hp'.length_le
      exact ⟨by simpa using this, by simpa using hp'⟩
    · cases hk
  | cons h hs ih =>
    intro k hk
    rw [findFirst] at hk
    split at hk
    · rename_i hp
      cases hk
      have hp' := List.isPrefixOf_iff_prefix.mp hp
      have := hp'.length_le
      exact ⟨by simpa using this, by simpa using hp'⟩
    · cases hf : findFirst needle hs with
      | none => rw [hf] at hk; cases hk
      | some k' =>
        rw [hf] at hk
        cases hk
        obtain ⟨a, b⟩ := ih k' hf
        exact ⟨by simp; omega, by simpa using b⟩

theorem findFirst_none (needle : List Nat) :
    ∀ (hay : List Nat), findFirst needle hay = none → ¬ needle <:+: hay := by
  intro hay
  induction hay with
  | nil =>
    intro hk hin
    rw [findFirst] at hk
    split at hk
    · cases hk
    · rename_i hp
      have : needle = [] := by simpa using hin
      subst this
      simp at hp
  | cons h hs ih =>
    intro hk hin
    rw [findFirst] at hk
    split at hk
    · cases hk
    · rename_i hp
      cases hf : findFirst needle hs with
      | some k' => rw [hf] at hk; cases hk
      | none =>
        rcases List.infix_cons_iff.mp hin with h1 | h2
        · exact hp (List.isPrefixOf_iff_prefix.mpr h1)
        · exact ih hf h2

namespace RemoveString

open ReplaceString in
theorem replaceAll_nil_of_findFirst (needle : List Nat) (hn : needle ≠ []) :
    ∀ (hay : List Nat),
      replaceAll needle [] hay =
        match findFirst needle hay with
        | some k => hay.take k ++ replaceAll needle [] (hay.drop (k + needle.length))
        | none => hay := by
  intro hay
  induction hay with
  | nil =>
    have : needle.isPrefixOf [] = false := by
      cases needle with
      | nil => exact absurd rfl hn
      | cons a as => rfl
    rw [findFirst, if_neg (by simp [this]), replaceAll_nil]
  | cons h hs ih =>
    rw [findFirst, replaceAll_cons]
    by_cases hp : needle.isPrefixOf (h :: hs) = true
    · rw [if_pos ⟨hn, hp⟩, if_pos hp]
      simp
    · rw [if_neg (fun c => hp c.2), if_neg hp, ih]
      cases findFirst needle hs with
      | none => rfl
      | some k => simp [Nat.add_right_comm]

theorem removeString_loop_spec (t : List Nat) (rest : Storage) (h0 : 0 ∉ t) (needle : List Nat)
    (hn : needle ≠ []) (fuel : Nat) :
    ∀ (read : Nat) (result : CustomVector) (rs : List Nat), Holds result rs →
      read ≤ t.length → t.length - read < fuel →
      ∃ r, loop (t.map some ++ some 0 :: rest) needle fuel read result = .ok r ∧
        Holds r (rs ++ ReplaceString.replaceAll needle [] (t.drop read)) := by
  have hpos : 0 < needle.length := List.length_pos.mpr hn
  induction fuel with
  | zero => intro read result rs _ _ hf; omega
  | succ fuel ih =>
    intro read result rs hr hread hf
    rw [loop]
    by_cases hlt : read < t.length
    · have hc : t[read] ≠ 0 := fun e => h0 (e ▸ List.getElem_mem _)
      rw [deref_text_lt t rest read hlt]
      dsimp only
      rw [if_neg hc, strstr, cstringAt_text t rest h0 read hread]
      dsimp only
      rw [replaceAll_nil_of_findFirst needle hn (t.drop read)]
      cases hf2 : findFirst needle (t.drop read) with
      | none =>
        dsimp only
        rw [text_drop t rest read hread]
        exact pushCString_text _ rest (fun e => h0 (List.mem_of_mem_drop e)) result rs hr
      | some k =>
        dsimp only
        obtain ⟨hk, _⟩ := findFirst_some needle _ k hf2
        rw [List.length_drop] at hk
        have e0 : read + k - read = k := by omega
        rw [e0]
        obtain ⟨r1, a1, a2⟩ := pushRange_text t rest read k 0 result rs hr (by omega)
        rw [a1]
        dsimp only
        obtain ⟨r, b1, b2⟩ := ih (read + k + needle.length) r1 _ a2 (by omega) (by omega)
        refine ⟨r, b1, ?_⟩
        rw [List.drop_drop]
        have e1 : read + (k + needle.length) = read + k + needle.length := by omega
        rw [e1]
        simpa [List.append_assoc] using b2
    · have : read = t.length := by omega
      subst this
      rw [deref_text_end]
      refine ⟨result, rfl, ?_⟩
      simpa [ReplaceString.replaceAll_nil] using hr

theorem removeString_apply_spec (v : CustomVector) (t needle : List Nat) (h : NullTerminated v t)
    (hn : needle ≠ []) :
    ∃ r, apply needle v = .ok r ∧ Holds r (ReplaceString.replaceAll needle [] t) := by
  obtain ⟨rest, hd⟩ := nullTerminated_data v t h
  obtain ⟨r1, a1, a2⟩ := removeString_loop_spec t rest h.2.2.2 needle hn (v.data.length + 1) 0 empty []
    holds_empty (by omega) (by rw [hd]; simp; omega)
  rw [List.nil_append, List.drop_zero] at a2
  obtain ⟨d, b1, b2⟩ := pushFrom_holds r1 _ a2 r1.getSize 0 v.clear []
    (clear_holds v h.1) (by rw [getSize, a2.2.1]; omega)
  refine ⟨d, ?_, by simpa using b2⟩
  rw [apply, getData]
  rw [hd] at a1 ⊢
  rw [a1]
  exact b1

end RemoveString

theorem applyLoop_eq_fold (ts : List TextTransform) (n : Nat) :
    ∀ (i : Nat) (v : CustomVector), i + n = ts.length →
      applyLoop ts n i v = foldTransforms (ts.drop i) v := by
  induction n with
  | zero =>
    intro i v hi
    rw [List.drop_of_length_le (by omega)]
    rfl
  | succ n ih =>
    intro i v hi
    have hlt : i < ts.length := by omega
    rw [applyLoop, List.getElem?_eq_getElem hlt, List.drop_eq_getElem_cons hlt, foldTransforms]
    dsimp only
    cases ts[i].apply v with
    | error e => rfl
    | ok w => exact ih (i + 1) w (by omega)

theorem decimalDigits_pos (fuel : Nat) :
    ∀ (n : Nat) (acc : List Nat), 0 < n → n < fuel →
      decimalDigits fuel n acc = (Nat.digits 10 n).reverse.map (fun d => 48 + d) ++ acc := by
  induction fuel with
  | zero => intro n acc _ h; omega
  | succ fuel ih =>
    intro n acc hn hf
    rw [decimalDigits, Nat.digits_def' (by norm_num) hn]
    by_cases hq : n / 10 = 0
    · rw [if_pos hq, hq]
      simp
    · rw [if_neg hq, ih (n / 10) _ (by omega) (by omega)]
      simp

theorem decimalDigits_eq (n : Nat) : decimalDigits (n + 1) n [] = decimalAscii n := by
  rw [decimalAscii]
  by_cases hn : n = 0
  · subst hn; rfl
  · rw [if_neg hn, decimalDigits_pos (n + 1) n [] (by omega) (by omega), List.append_nil]

theorem decimalAscii_length_le (n : Nat) (h : n < 2 ^ 31) : (decimalAscii n).length ≤ 10 := by
  rw [decimalAscii]
  by_cases hn : n = 0
  · subst hn; simp
  · rw [if_neg hn, List.length_map, List.length_reverse]
    by_contra hc
    have h1 : 10 ^ 11 ≤ 10 ^ (Nat.digits 10 n).length :=
      Nat.pow_le_pow_right (by norm_num) (by omega)
    have h2 := Nat.base_pow_length_digits_le 10 n (by norm_num) hn
    have h3 : (2 : Nat) ^ 31 = 2147483648 := by norm_num
    have h4 : (10 : Nat) ^ 11 = 100000000000 := by norm_num
    omega

theorem snprintf_d_nat (n : Nat) (h : n < 2 ^ 31) : snprintf_d 16 (n : Int) = decimalAscii n := by
  rw [snprintf_d]
  have hneg : ¬ ((n : Int) < 0) := by omega
  simp only [hneg, if_false, Int.toNat_ofNat]
  rw [decimalDigits_eq, List.take_of_length_le]
  have := decimalAscii_length_le n h
  omega

namespace CountSymbols

theorem count_text (t : List Nat) (rest : Storage) :
    ∀ (n : Nat), 0 ∉ t → n + t.length ≤ intMax →
      count (t.map some ++ some 0 :: rest) n = .ok (n + t.length) := by
  induction t with
  | nil => intro n _ _; simp [count]
  | cons y ys ih =>
    intro n h0 hb
    have hy : y ≠ 0 := fun e => h0 (by simp [e])
    have h0' : 0 ∉ ys := fun e => h0 (by simp [e])
    simp only [List.length_cons] at hb
    rw [List.map_cons, List.cons_append, count, if_neg hy, if_neg (by omega),
      ih (n + 1) h0' (by omega)]
    simp only [List.length_cons]
    congr 1; omega

theorem countSymbols_apply_spec (v : CustomVector) (t : List Nat) (h : NullTerminated v t)
    (hL : t.length < 2 ^ 31) :
    ∃ r, apply v = .ok r ∧ Holds r (decimalAscii t.length) := by
  obtain ⟨rest, hd⟩ := nullTerminated_data v t h
  have hc := count_text t rest 0 h.2.2.2 (by simp [intMax]; omega)
  rw [Nat.zero_add] at hc
  refine ⟨v.clear.pushAll (decimalAscii t.length), ?_, ?_⟩
  · rw [apply, getData, hd, hc]
    dsimp only
    rw [snprintf_d_nat _ hL]
  · simpa using pushAll_holds (decimalAscii t.length) v.clear [] (clear_holds v h.1)

end CountSymbols

/-! ## Tokens -/

theorem intercalate_cons_cons (sep l l2 : List Nat) (ls : List (List Nat)) :
    sep.intercalate (l :: l2 :: ls) = l ++ sep ++ sep.intercalate (l2 :: ls) := by
  simp [List.intercalate]

theorem intercalate_singleton (sep l : List Nat) : sep.intercalate [l] = l := by
  simp [List.intercalate]

theorem strcspn_line (l : List Nat) (b : Nat) (post : Storage) (h10 : 10 ∉ l) (h0 : 0 ∉ l)
    (hb : b = 0 ∨ b = 10) :
    strcspn [10] (l.map some ++ some b :: post) = .ok l.length := by
  induction l with
  | nil =>
    rw [List.map_nil, List.nil_append, strcspn, if_pos (by simpa using hb)]
    rfl
  | cons y ys ih =>
    have hy : ¬ (y = 0 ∨ y ∈ [10]) := by
      intro e
      rcases e with e | e
      · exact h0 (by simp [e])
      · exact h10 (by simp at e; simp [e])
    rw [List.map_cons, List.cons_append, strcspn, if_neg hy,
      ih (fun e => h10 (by simp [e])) (fun e => h0 (by simp [e]))]
    rfl

theorem strtok_line (pre : Storage) (l : List Nat) (b : Nat) (post : Storage) (hne : l ≠ [])
    (h10 : 10 ∉ l) (h0 : 0 ∉ l) (hb : b = 0 ∨ b = 10) :
    strtok (pre ++ l.map some ++ some b :: post) pre.length [10] =
      .ok (some pre.length, if b = 0 then pre.length + l.length else pre.length + l.length + 1,
        pre ++ l.map some ++ some 0 :: post) := by
  obtain ⟨y, ys, rfl⟩ := List.exists_cons_of_ne_nil hne
  have hy0 : y ≠ 0 := fun e => h0 (by simp [e])
  have hy10 : y ≠ 10 := fun e => h10 (by simp [e])
  have hdrop : (pre ++ (y :: ys).map some ++ some b :: post).drop pre.length =
      (y :: ys).map some ++ some b :: post := by
    rw [List.append_assoc, List.drop_left]
  have hspn : strspn [10] ((y :: ys).map some ++ some b :: post) = .ok 0 := by
    rw [List.map_cons, List.cons_append, strspn, if_neg (by simp [hy10])]
  have hd1 : deref (pre ++ (y :: ys).map some ++ some b :: post) (pre.length + 0) = .ok y := by
    rw [deref, List.append_assoc, List.getElem?_append_right (by omega)]
    simp
  have hd2 : deref (pre ++ (y :: ys).map some ++ some b :: post)
      (pre.length + 0 + (y :: ys).length) = .ok b := by
    rw [deref, List.getElem?_append_right (by simp)]
    simp
  have hset : (pre ++ (y :: ys).map some ++ some b :: post).set
      (pre.length + 0 + (y :: ys).length) (some 0) =
      pre ++ (y :: ys).map some ++ some 0 :: post := by
    rw [List.set_append_right _ _ (by simp)]
    simp
  rw [strtok, hdrop, hspn]
  dsimp only
  rw [hd1]
  dsimp only
  rw [if_neg hy0, Nat.add_zero, hdrop, strcspn_line _ b post h10 h0 hb]
  dsimp only
  rw [Nat.add_zero] at hd2 hset
  rw [hd2]
  dsimp only
  rcases hb with hb | hb
  · subst hb
    rw [if_pos rfl, if_pos rfl]
  · subst hb
    rw [if_neg (by decide), if_neg (by decide), hset]

theorem strtok_end (pre rest : Storage) :
    strtok (pre ++ some 0 :: rest) pre.length [10] = .ok (none, pre.length, pre ++ some 0 :: rest) := by
  have hdrop : (pre ++ some 0 :: rest).drop pre.length = some 0 :: rest := List.drop_left _ _
  have hd : deref (pre ++ some 0 :: rest) (pre.length + 0) = .ok 0 := by
    rw [deref, List.getElem?_append_right (by omega)]
    simp
  rw [strtok, hdrop, strspn, if_neg (by simp)]
  dsimp only
  rw [hd]
  rfl

theorem strtok_lines (pre rest : Storage) (l : List Nat) (ls : List (List Nat))
    (hl : GoodLine l) :
    ∃ pre' post : Storage,
      strtok (pre ++ (([10] : List Nat).intercalate (l :: ls)).map some ++ some 0 :: rest)
          pre.length [10] =
        .ok (some pre.length, pre'.length,
          pre' ++ (([10] : List Nat).intercalate ls).map some ++ some 0 :: rest) ∧
      pre' ++ (([10] : List Nat).intercalate ls).map some ++ some 0 :: rest =
        pre ++ l.map some ++ some 0 :: post ∧
      (pre' ++ (([10] : List Nat).intercalate ls).map some ++ some 0 :: rest).length =
        (pre ++ (([10] : List Nat).intercalate (l :: ls)).map some ++ some 0 :: rest).length := by
  obtain ⟨hne, h10, h0⟩ := hl
  cases ls with
  | nil =>
    refine ⟨pre ++ l.map some, rest, ?_, ?_, ?_⟩
    · rw [intercalate_singleton]
      have := strtok_line pre l 0 rest hne h10 h0 (Or.inl rfl)
      rw [if_pos rfl] at this
      simpa [List.intercalate] using this
    · simp [List.intercalate]
    · simp [List.intercalate]
  | cons l2 ls =>
    refine ⟨pre ++ l.map some ++ [some 0],
      (([10] : List Nat).intercalate (l2 :: ls)).map some ++ some 0 :: rest, ?_, ?_, ?_⟩
    · have := strtok_line pre l 10
        ((([10] : List Nat).intercalate (l2 :: ls)).map some ++ some 0 :: rest) hne h10 h0
        (Or.inr rfl)
      rw [if_neg (by decide)] at this
      rw [intercalate_cons_cons]
      simpa [List.append_assoc] using this
    · simp [List.append_assoc]
    · rw [intercalate_cons_cons]
      simp [List.append_assoc]

/-! ## Comparing and joining lines -/

theorem strcmp_neg_iff (a : List Nat) :
    ∀ b : List Nat, 0 ∉ a → 0 ∉ b → (strcmp a b < 0 ↔ a < b) := by
  induction a with
  | nil =>
    intro b _ hb
    cases b with
    | nil => simp [strcmp]
    | cons y ys =>
      have hy : y ≠ 0 := fun e => hb (by simp [e])
      simp only [strcmp]
      constructor
      · intro _; exact List.nil_lt_cons y ys
      · intro _; omega
  | cons x xs ih =>
    intro b ha hb
    have hx : x ≠ 0 := fun e => ha (by simp [e])
    cases b with
    | nil =>
      simp only [strcmp]
      constructor
      · intro h; omega
      · intro h; exact absurd h (List.Lex.not_nil_right _ _)
    | cons y ys =>
      rw [strcmp]
      by_cases hxy : x = y
      · subst hxy
        rw [if_pos rfl, ih ys (fun e => ha (by simp [e])) (fun e => hb (by simp [e]))]
        exact (List.Lex.cons_iff (r := (· < ·))).symm
      · rw [if_neg hxy]
        constructor
        · intro h
          exact List.Lex.rel (by omega)
        · intro h
          cases h with
          | cons h' => exact absurd rfl hxy
          | rel h' => omega

theorem strcmp_eq_zero_iff (a : List Nat) :
    ∀ b : List Nat, 0 ∉ a → 0 ∉ b → (strcmp a b = 0 ↔ a = b) := by
  induction a with
  | nil =>
    intro b _ hb
    cases b with
    | nil => simp [strcmp]
    | cons y ys =>
      have hy : y ≠ 0 := fun e => hb (by simp [e])
      simp only [strcmp]
      constructor
      · intro h; omega
      · intro h; cases h
  | cons x xs ih =>
    intro b ha hb
    have hx : x ≠ 0 := fun e => ha (by simp [e])
    cases b with
    | nil =>
      simp only [strcmp]
      constructor
      · intro h; omega
      · intro h; cases h
    | cons y ys =>
      rw [strcmp]
      by_cases hxy : x = y
      · subst hxy
        rw [if_pos rfl, ih ys (fun e => ha (by simp [e])) (fun e => hb (by simp [e]))]
        simp
      · rw [if_neg hxy]
        constructor
        · intro h; omega
        · intro h; cases h; exact absurd rfl hxy

theorem intercalate_cons_of_ne_nil (sep l : List Nat) (ls : List (List Nat)) (h : ls ≠ []) :
    sep.intercalate (l :: ls) = l ++ sep ++ sep.intercalate ls := by
  obtain ⟨l2, ls', rfl⟩ := List.exists_cons_of_ne_nil h
  exact intercalate_cons_cons sep l l2 ls'

theorem emitLoop_spec (rows : List (List Nat)) (row : Nat → Option (List Nat))
    (hrow : ∀ i, i < rows.length → row i = some (rows.getD i [])) (n : Nat) :
    ∀ (i : Nat) (data : CustomVector) (ds : List Nat), Holds data ds → i + n = rows.length →
      ∃ d, emitLoop row rows.length n i data = .ok d ∧
        Holds d (ds ++ ([10] : List Nat).intercalate (rows.drop i)) := by
  induction n with
  | zero =>
    intro i data ds hd hi
    refine ⟨data, rfl, ?_⟩
    rw [List.drop_of_length_le (by omega)]
    simpa [List.intercalate] using hd
  | succ n ih =>
    intro i data ds hd hi
    have hlt : i < rows.length := by omega
    have hg : rows.getD i [] = rows[i] := by
      rw [List.getD_eq_getElem?_getD, List.getElem?_eq_getElem hlt]; rfl
    rw [emitLoop, hrow i hlt, hg]
    dsimp only
    have h1 := pushAll_holds rows[i] data ds hd
    rw [List.drop_eq_getElem_cons hlt]
    by_cases hlast : i + 1 < rows.length
    · rw [if_pos (by omega)]
      obtain ⟨d, e1, e2⟩ := ih (i + 1) _ _ (push_back_holds _ _ 10 h1) (by omega)
      refine ⟨d, e1, ?_⟩
      have hne : rows.drop (i + 1) ≠ [] := by
        intro e
        have := congrArg List.length e
        simp at this
        omega
      rw [intercalate_cons_of_ne_nil _ _ _ hne]
      simpa [List.append_assoc] using e2
    · rw [if_neg (by omega)]
      obtain ⟨d, e1, e2⟩ := ih (i + 1) _ _ h1 (by omega)
      refine ⟨d, e1, ?_⟩
      rw [List.drop_of_length_le (by omega)] at e2 ⊢
      simpa [List.intercalate] using e2

theorem length_le_intercalate (ls : List (List Nat)) (h : ∀ l ∈ ls, l ≠ []) :
    ls.length ≤ (([10] : List Nat).intercalate ls).length := by
  induction ls with
  | nil => simp
  | cons l ls ih =>
    have hl : 0 < l.length := List.length_pos.mpr (h l (by simp))
    by_cases hne : ls = []
    · subst hne
      rw [intercalate_singleton]
      simpa using hl
    · rw [intercalate_cons_of_ne_nil _ _ _ hne]
      have := ih (fun x hx => h x (by simp [hx]))
      simp only [List.length_cons, List.length_append, List.length_nil]
      omega

theorem cstringAt_token (pre post : Storage) (l : List Nat) (h0 : 0 ∉ l) :
    cstringAt (pre ++ l.map some ++ some 0 :: post) pre.length = .ok l := by
  rw [cstringAt, List.append_assoc, List.drop_left]
  exact cstring_text l post h0

namespace LexSortLines

theorem lexSort_split_spec (rest : Storage) (ls : List (List Nat)) :
    ∀ (fuel : Nat) (pre pre' post : Storage) (l : List Nat) (acc : List (List Nat)),
      (∀ x ∈ ls, GoodLine x ∧ x.length < maxLineLen) →
      0 ∉ l → l.length < maxLineLen →
      pre' ++ (([10] : List Nat).intercalate ls).map some ++ some 0 :: rest =
        pre ++ l.map some ++ some 0 :: post →
      acc.length + 1 + ls.length ≤ maxLines → ls.length + 1 < fuel →
      ∃ mem', split fuel (pre' ++ (([10] : List Nat).intercalate ls).map some ++ some 0 :: rest)
          (some pre.length) pre'.length acc = .ok (acc ++ l :: ls, mem') ∧
        mem'.length =
          (pre' ++ (([10] : List Nat).intercalate ls).map some ++ some 0 :: rest).length := by
  induction ls with
  | nil =>
    intro fuel pre pre' post l acc _ h0 hlen hview hcap hfuel
    obtain ⟨f, rfl⟩ : ∃ f, fuel = f + 2 := ⟨fuel - 2, by simp at hfuel; omega⟩
    refine ⟨_, ?_, rfl⟩
    rw [split]
    rw [hview, cstringAt_token pre post l h0]
    dsimp only
    rw [if_pos ⟨by simp at hcap; omega, hlen⟩, ← hview]
    have := strtok_end pre' rest
    simp only [List.intercalate, List.intersperse, List.flatten, List.map_nil,
      List.append_nil] at this ⊢
    rw [this]
    dsimp only
    rw [split]
  | cons l2 ls ih =>
    intro fuel pre pre' post l acc hgood h0 hlen hview hcap hfuel
    obtain ⟨f, rfl⟩ : ∃ f, fuel = f + 1 := ⟨fuel - 1, by omega⟩
    obtain ⟨hg2, hlen2⟩ := hgood l2 (by simp)
    obtain ⟨pre2, post2, t1, t2, t3⟩ := strtok_lines pre' rest l2 ls hg2
    obtain ⟨mem', e1, e2⟩ := ih f pre' pre2 post2 l2 (acc ++ [l])
      (fun x hx => hgood x (by simp [hx])) hg2.2.2 hlen2 t2
      (by simp at hcap ⊢; omega) (by simp at hfuel ⊢; omega)
    refine ⟨mem', ?_, by rw [e2, t3]⟩
    rw [split]
    rw [hview, cstringAt_token pre post l h0]
    dsimp only
    rw [if_pos ⟨by simp at hcap; omega, hlen⟩, ← hview, t1]
    dsimp only
    rw [e1]
    simp

theorem lexSort_tokenize_spec (rest : Storage) (ls : List (List Nat))
    (hgood : ∀ x ∈ ls, GoodLine x ∧ x.length < maxLineLen) (hcap : ls.length ≤ maxLines) :
    ∃ mem',
      (match strtok ((([10] : List Nat).intercalate ls).map some ++ some 0 :: rest) 0 [10] with
        | .error e => (.error e : Except Error (List (List Nat) × Storage))
        | .ok (token, save, mem) => split (mem.length + 1) mem token save []) =
        .ok (ls, mem') ∧
      mem'.length = ((([10] : List Nat).intercalate ls).map some ++ some 0 :: rest).length := by
  cases ls with
  | nil =>
    have := strtok_end [] rest
    simp only [List.nil_append, List.length_nil] at this
    refine ⟨_, ?_, rfl⟩
    simp only [List.intercalate, List.intersperse, List.flatten, List.map_nil, List.nil_append]
    rw [this]
    dsimp only
    rw [split]
  | cons l ls =>
    obtain ⟨hg, hlen⟩ := hgood l (by simp)
    obtain ⟨pre', post, t1, t2, t3⟩ := strtok_lines [] rest l ls hg
    simp only [List.nil_append, List.length_nil] at t1 t2 t3
    have hle := length_le_intercalate (l :: ls) (fun x hx => (hgood x hx).1.1)
    obtain ⟨mem', e1, e2⟩ := lexSort_split_spec rest ls
      ((pre' ++ (([10] : List Nat).intercalate ls).map some ++ some 0 :: rest).length + 1)
      [] pre' post l [] (fun x hx => hgood x (by simp [hx])) hg.2.2 hlen
      (by simpa using t2) (by simp at hcap ⊢; omega)
      (by rw [t3]; simp at hle ⊢; omega)
    refine ⟨mem', ?_, by rw [e2, t3]⟩
    rw [t1]
    dsimp only
    simpa using e1

end LexSortLines

theorem map_getD_range (ls : List (List Nat)) :
    (List.range ls.length).map (fun a => ls.getD a []) = ls := by
  apply List.ext_getElem
  · simp
  · intro n h1 h2
    simp [List.getElem?_eq_getElem h2]

namespace LexSortLines

theorem comp_false_iff (ls : List (List Nat)) (h0 : ∀ x ∈ ls, 0 ∉ x) (a b : Nat) :
    decide (strcmp (ls.getD b []) (ls.getD a []) < 0) = false ↔
      ls.getD a [] ≤ ls.getD b [] := by
  have hz : ∀ i, 0 ∉ ls.getD i [] := by
    intro i
    rw [List.getD_eq_getElem?_getD]
    by_cases hi : i < ls.length
    · rw [List.getElem?_eq_getElem hi]
      exact h0 _ (List.getElem_mem _)
    · rw [List.getElem?_eq_none (by omega)]
      simp
  rw [decide_eq_false_iff_not, strcmp_neg_iff _ _ (hz b) (hz a), not_lt]

theorem sorted_rows (ls : List (List Nat)) (h0 : ∀ x ∈ ls, 0 ∉ x) :
    ((stdSort (fun a b => decide (strcmp (ls.getD a []) (ls.getD b []) < 0))
      (List.range ls.length)).map (fun a => ls.getD a [])) = ls.insertionSort (· ≤ ·) := by
  have hiff := comp_false_iff ls h0
  haveI : IsTotal Nat
      (fun a b => decide (strcmp (ls.getD b []) (ls.getD a []) < 0) = false) :=
    ⟨fun a b => by
      rw [hiff, hiff]; exact le_total _ _⟩
  haveI : IsTrans Nat
      (fun a b => decide (strcmp (ls.getD b []) (ls.getD a []) < 0) = false) :=
    ⟨fun a b c => by
      rw [hiff, hiff, hiff]; exact le_trans⟩
  have hs := List.sorted_insertionSort
    (fun a b => decide (strcmp (ls.getD b []) (ls.getD a []) < 0) = false)
    (List.range ls.length)
  have hp := List.perm_insertionSort
    (fun a b => decide (strcmp (ls.getD b []) (ls.getD a []) < 0) = false)
    (List.range ls.length)
  apply List.eq_of_perm_of_sorted (r := (· ≤ ·))
  · refine ((hp.map _).trans ?_).trans (List.perm_insertionSort _ ls).symm
    rw [map_getD_range]
  · rw [stdSort, List.Sorted, List.pairwise_map]
    exact hs.imp (fun {a b} hab => (hiff a b).mp hab)
  · exact List.sorted_insertionSort _ ls

theorem lexSort_apply_spec (v : CustomVector) (ls : List (List Nat))
    (h : NullTerminated v (([10] : List Nat).intercalate ls))
    (hgood : ∀ x ∈ ls, GoodLine x ∧ x.length < maxLineLen) (hcap : ls.length ≤ maxLines) :
    ∃ r, apply v = .ok r ∧
      Holds r (([10] : List Nat).intercalate (ls.insertionSort (· ≤ ·))) := by
  obtain ⟨rest, hd⟩ := nullTerminated_data v _ h
  obtain ⟨mem', e1, e2⟩ := lexSort_tokenize_spec rest ls hgood hcap
  have h0 : ∀ x ∈ ls, 0 ∉ x := fun x hx => (hgood x hx).1.2.2
  have hrows := sorted_rows ls h0
  generalize hidx : stdSort (fun a b => decide (strcmp (ls.getD a []) (ls.getD b []) < 0))
      (List.range ls.length) = idx at hrows
  have hperm : idx.Perm (List.range ls.length) := by
    rw [← hidx]; exact List.perm_insertionSort _ _
  have hlen : (ls.insertionSort (· ≤ ·)).length = ls.length :=
    (List.perm_insertionSort _ ls).length_eq
  have hilen : idx.length = ls.length := by
    rw [hperm.length_eq]; simp
  have hdata : Holds ({ v with data := mem' } : CustomVector).clear [] :=
    clear_holds _ (by show v.capacity = mem'.length; rw [e2, ← hd]; exact h.1)
  obtain ⟨d, a1, a2⟩ := emitLoop_spec (ls.insertionSort (· ≤ ·))
    (fun i => match idx[i]? with
      | some a => ls[a]?
      | none => none)
    (by
      intro i hi
      rw [hlen] at hi
      have hi' : i < idx.length := by omega
      have hmem : idx[i] ∈ List.range ls.length := hperm.subset (List.getElem_mem _)
      have hlt : idx[i] < ls.length := List.mem_range.mp hmem
      simp only [List.getElem?_eq_getElem hi', List.getElem?_eq_getElem hlt]
      have : (ls.insertionSort (· ≤ ·)).getD i [] = ls.getD idx[i] [] := by
        rw [← hrows]
        simp [List.getD_eq_getElem?_getD, List.getElem?_eq_getElem hi']
      rw [this, List.getD_eq_getElem?_getD, List.getElem?_eq_getElem hlt]
      rfl)
    (ls.insertionSort (· ≤ ·)).length 0 _ [] hdata (by omega)
  refine ⟨d, ?_, by simpa using a2⟩
  rw [apply, getData, hd]
  cases hst : strtok ((([10] : List Nat).intercalate ls).map some ++ some 0 :: rest) 0 [10] with
  | error e => rw [hst] at e1; cases e1
  | ok p =>
    obtain ⟨token, save, mem⟩ := p
    rw [hst] at e1
    dsimp only at e1 ⊢
    rw [e1]
    dsimp only
    rw [hidx]
    rw [hlen] at a1
    exact a1

end LexSortLines

namespace RemoveDuplicateLines

theorem isDuplicate_iff (l : List Nat) (h0 : 0 ∉ l) :
    ∀ acc : List (List Nat), (∀ x ∈ acc, 0 ∉ x) → (isDuplicate l acc = true ↔ l ∈ acc) := by
  intro acc
  induction acc with
  | nil => intro _; simp [isDuplicate]
  | cons a acc ih =>
    intro hacc
    rw [isDuplicate]
    have hiff := strcmp_eq_zero_iff l a h0 (hacc a (by simp))
    by_cases hq : strcmp l a = 0
    · rw [if_pos hq]
      simp [hiff.mp hq]
    · rw [if_neg hq, ih (fun x hx => hacc x (by simp [hx]))]
      have : l ≠ a := fun e => hq (hiff.mpr e)
      simp [this]

theorem step_length (acc : List (List Nat)) (l : List Nat) :
    (step acc l).length ≤ acc.length + 1 := by
  rw [step]; split <;> simp

theorem step_zero_free (acc : List (List Nat)) (l : List Nat) (h0 : 0 ∉ l)
    (hacc : ∀ x ∈ acc, 0 ∉ x) : ∀ x ∈ step acc l, 0 ∉ x := by
  intro x hx
  rw [step] at hx
  split at hx
  · exact hacc x hx
  · rcases List.mem_append.mp hx with h | h
    · exact hacc x h
    · simp at h; subst h; exact h0

theorem dedup_split_spec (rest : Storage) (ls : List (List Nat)) :
    ∀ (fuel : Nat) (pre pre' post : Storage) (l : List Nat) (acc : List (List Nat)),
      (∀ x ∈ ls, GoodLine x ∧ x.length < maxLineLen) →
      0 ∉ l → l.length < maxLineLen → (∀ x ∈ acc, 0 ∉ x) →
      pre' ++ (([10] : List Nat).intercalate ls).map some ++ some 0 :: rest =
        pre ++ l.map some ++ some 0 :: post →
      acc.length + 1 + ls.length ≤ maxLines → ls.length + 1 < fuel →
      ∃ mem', split fuel (pre' ++ (([10] : List Nat).intercalate ls).map some ++ some 0 :: rest)
          (some pre.length) pre'.length acc = .ok ((l :: ls).foldl step acc, mem') ∧
        mem'.length =
          (pre' ++ (([10] : List Nat).intercalate ls).map some ++ some 0 :: rest).length := by
  induction ls with
  | nil =>
    intro fuel pre pre' post l acc _ h0 hlen hacc hview hcap hfuel
    obtain ⟨f, rfl⟩ : ∃ f, fuel = f + 2 := ⟨fuel - 2, by simp at hfuel; omega⟩
    have hend := strtok_end pre' rest
    refine ⟨_, ?_, rfl⟩
    rw [split, if_pos (by simp at hcap; omega)]
    rw [hview, cstringAt_token pre post l h0]
    dsimp only
    rw [← hview]
    simp only [List.intercalate, List.intersperse, List.flatten, List.map_nil,
      List.append_nil, List.foldl_cons, List.foldl_nil, step]
    by_cases hdup : l ∈ acc
    · rw [if_pos ((isDuplicate_iff l h0 acc hacc).mpr hdup), hend, if_pos hdup]
      dsimp only
      rw [split]
    · have : ¬ isDuplicate l acc = true := fun e => hdup ((isDuplicate_iff l h0 acc hacc).mp e)
      rw [if_neg this, if_pos hlen, hend, if_neg hdup]
      dsimp only
      rw [split]
  | cons l2 ls ih =>
    intro fuel pre pre' post l acc hgood h0 hlen hacc hview hcap hfuel
    obtain ⟨f, rfl⟩ : ∃ f, fuel = f + 1 := ⟨fuel - 1, by omega⟩
    obtain ⟨hg2, hlen2⟩ := hgood l2 (by simp)
    obtain ⟨pre2, post2, t1, t2, t3⟩ := strtok_lines pre' rest l2 ls hg2
    have hsl := step_length acc l
    obtain ⟨mem', e1, e2⟩ := ih f pre' pre2 post2 l2 (step acc l)
      (fun x hx => hgood x (by simp [hx])) hg2.2.2 hlen2 (step_zero_free acc l h0 hacc) t2
      (by simp at hcap ⊢; omega) (by simp at hfuel ⊢; omega)
    refine ⟨mem', ?_, by rw [e2, t3]⟩
    rw [split, if_pos (by simp at hcap; omega)]
    rw [hview, cstringAt_token pre post l h0]
    dsimp only
    rw [← hview, List.foldl_cons]
    by_cases hdup : l ∈ acc
    · rw [if_pos ((isDuplicate_iff l h0 acc hacc).mpr hdup), t1]
      dsimp only
      rw [step, if_pos hdup] at e1 ⊢
      exact e1
    · have : ¬ isDuplicate l acc = true := fun e => hdup ((isDuplicate_iff l h0 acc hacc).mp e)
      rw [if_neg this, if_pos hlen, t1]
      dsimp only
      rw [step, if_neg hdup] at e1 ⊢
      exact e1

theorem firstOccurrences_filter (p : List Nat → Bool) (xs : List (List Nat)) :
    firstOccurrences (xs.filter p) = (firstOccurrences xs).filter p := by
  induction xs with
  | nil => rfl
  | cons x xs ih =>
    by_cases hp : p x = true
    · rw [List.filter_cons_of_pos hp, firstOccurrences, firstOccurrences,
        List.filter_cons_of_pos hp, ih, List.filter_filter, List.filter_filter]
      congr 1
      apply List.filter_congr
      intro y _
      exact Bool.and_comm _ _
    · rw [List.filter_cons_of_neg hp, firstOccurrences, List.filter_cons_of_neg hp, ih,
        List.filter_filter]
      apply List.filter_congr
      intro y _
      by_cases hy : y = x
      · subst hy; simp [hp]
      · simp [hy]

theorem foldl_step (ls : List (List Nat)) :
    ∀ acc : List (List Nat),
      ls.foldl step acc = acc ++ firstOccurrences (ls.filter (fun k => decide (k ∉ acc))) := by
  induction ls with
  | nil => intro acc; simp [firstOccurrences]
  | cons l ls ih =>
    intro acc
    rw [List.foldl_cons, ih, step]
    by_cases hdup : l ∈ acc
    · rw [if_pos hdup, List.filter_cons_of_neg (by simpa using hdup)]
    · rw [if_neg hdup, List.filter_cons_of_pos (by simpa using hdup), firstOccurrences,
        ← firstOccurrences_filter, List.filter_filter, List.append_assoc]
      have hf : ls.filter (fun k => decide (k ∉ acc ++ [l])) =
          ls.filter (fun a => decide (a ≠ l) && decide (a ∉ acc)) := by
        apply List.filter_congr
        intro y _
        by_cases hy : y = l
        · subst hy; simp
        · simp [hy]
      rw [hf]
      rfl

theorem dedup_tokenize_spec (rest : Storage) (ls : List (List Nat))
    (hgood : ∀ x ∈ ls, GoodLine x ∧ x.length < maxLineLen) (hcap : ls.length ≤ maxLines) :
    ∃ mem',
      (match strtok ((([10] : List Nat).intercalate ls).map some ++ some 0 :: rest) 0 [10] with
        | .error e => (.error e : Except Error (List (List Nat) × Storage))
        | .ok (token, save, mem) => split (mem.length + 1) mem token save []) =
        .ok (firstOccurrences ls, mem') ∧
      mem'.length = ((([10] : List Nat).intercalate ls).map some ++ some 0 :: rest).length := by
  cases ls with
  | nil =>
    have := strtok_end [] rest
    simp only [List.nil_append, List.length_nil] at this
    refine ⟨_, ?_, rfl⟩
    simp only [List.intercalate, List.intersperse, List.flatten, List.map_nil, List.nil_append]
    rw [this]
    dsimp only
    rw [split]
    rfl
  | cons l ls =>
    obtain ⟨hg, hlen⟩ := hgood l (by simp)
    obtain ⟨pre', post, t1, t2, t3⟩ := strtok_lines [] rest l ls hg
    simp only [List.nil_append, List.length_nil] at t1 t2 t3
    have hle := length_le_intercalate (l :: ls) (fun x hx => (hgood x hx).1.1)
    obtain ⟨mem', e1, e2⟩ := dedup_split_spec rest ls
      ((pre' ++ (([10] : List Nat).intercalate ls).map some ++ some 0 :: rest).length + 1)
      [] pre' post l [] (fun x hx => hgood x (by simp [hx])) hg.2.2 hlen (by simp)
      (by simpa using t2) (by simp at hcap ⊢; omega)
      (by rw [t3]; simp at hle ⊢; omega)
    refine ⟨mem', ?_, by rw [e2, t3]⟩
    rw [t1]
    dsimp only
    rw [foldl_step] at e1
    simpa using e1

theorem dedup_apply_spec (v : CustomVector) (ls : List (List Nat))
    (h : NullTerminated v (([10] : List Nat).intercalate ls))
    (hgood : ∀ x ∈ ls, GoodLine x ∧ x.length < maxLineLen) (hcap : ls.length ≤ maxLines) :
    ∃ r, apply v = .ok r ∧ Holds r (([10] : List Nat).intercalate (firstOccurrences ls)) := by
  obtain ⟨rest, hd⟩ := nullTerminated_data v _ h
  obtain ⟨mem', e1, e2⟩ := dedup_tokenize_spec rest ls hgood hcap
  have hdata : Holds ({ v with data := mem' } : CustomVector).clear [] :=
    clear_holds _ (by show v.capacity = mem'.length; rw [e2, ← hd]; exact h.1)
  obtain ⟨d, a1, a2⟩ := emitLoop_spec (firstOccurrences ls)
    (fun i => (firstOccurrences ls)[i]?)
    (by
      intro i hi
      simp [List.getElem?_eq_getElem hi])
    (firstOccurrences ls).length 0 _ [] hdata (by omega)
  refine ⟨d, ?_, by simpa using a2⟩
  rw [apply, getData, hd]
  cases hst : strtok ((([10] : List Nat).intercalate ls).map some ++ some 0 :: rest) 0 [10] with
  | error e => rw [hst] at e1; cases e1
  | ok p =>
    obtain ⟨token, save, mem⟩ := p
    rw [hst] at e1
    dsimp only at e1 ⊢
    rw [e1]
    exact a1

end RemoveDuplicateLines

theorem assign_holds (v result : CustomVector) (rs : List Nat) (h : Holds result rs) :
    Holds (v.assign result) rs := by
  rw [holds_iff] at h ⊢
  obtain ⟨h1, h2, h3, h4⟩ := h
  rw [assign, copyFrom]
  dsimp only
  by_cases hne : result.data = []
  · rw [if_neg (by simpa using hne)]
    have hsz : result.size = 0 := by rw [hne] at h3; simpa using h3
    refine ⟨by rw [h1, hne]; rfl, h2, by omega, fun k hk => by omega⟩
  · rw [if_pos hne]
    refine ⟨by simp [copyLoop_length, newArray], h2,
      by simp [copyLoop_length, newArray]; omega, fun k hk => ?_⟩
    rw [copyLoop_getElem? _ _ _ _ _ _ (by omega), if_pos (by simp [newArray]; omega)]
    exact h4 k hk

theorem strstr_token (pre post : Storage) (l needle : List Nat) (h0 : 0 ∉ l) :
    (∃ m, strstr (pre ++ l.map some ++ some 0 :: post) pre.length needle = .ok (some m) ∧
        needle <:+: l) ∨
      (strstr (pre ++ l.map some ++ some 0 :: post) pre.length needle = .ok none ∧
        ¬ needle <:+: l) := by
  rw [strstr, cstringAt_token pre post l h0]
  dsimp only
  cases hf : findFirst needle l with
  | none => exact Or.inr ⟨rfl, findFirst_none needle l hf⟩
  | some k =>
    refine Or.inl ⟨_, rfl, ?_⟩
    obtain ⟨_, hp⟩ := findFirst_some needle l k hf
    exact hp.isInfix.trans (List.drop_suffix k l).isInfix

theorem terminateLines_cons (l : List Nat) (ls : List (List Nat)) :
    terminateLines (l :: ls) = l ++ [10] ++ terminateLines ls := by
  simp [terminateLines]

namespace RemoveLines

theorem removeLines_loop_spec (needle : List Nat) (rest : Storage) (ls : List (List Nat)) :
    ∀ (fuel : Nat) (pre pre' post : Storage) (l : List Nat) (numLines : Nat)
      (result : CustomVector) (rs : List Nat),
      (∀ x ∈ ls, GoodLine x) → 0 ∉ l → Holds result rs →
      pre' ++ (([10] : List Nat).intercalate ls).map some ++ some 0 :: rest =
        pre ++ l.map some ++ some 0 :: post →
      numLines + 1 + ls.length ≤ maxLines → ls.length + 1 < fuel →
      ∃ r mem', loop needle fuel
          (pre' ++ (([10] : List Nat).intercalate ls).map some ++ some 0 :: rest)
          (some pre.length) pre'.length numLines result = .ok (r, mem') ∧
        Holds r (rs ++ terminateLines (keptLines needle (l :: ls))) := by
  induction ls with
  | nil =>
    intro fuel pre pre' post l numLines result rs _ h0 hr hview hcap hfuel
    obtain ⟨f, rfl⟩ : ∃ f, fuel = f + 2 := ⟨fuel - 2, by simp at hfuel; omega⟩
    have hend := strtok_end pre' rest
    simp only [List.intercalate, List.intersperse, List.flatten, List.map_nil,
      List.append_nil] at hview ⊢
    rw [loop, if_pos (by simp at hcap; omega)]
    rcases strstr_token pre post l needle h0 with ⟨m, a1, a2⟩ | ⟨a1, a2⟩
    · rw [hview, a1]
      dsimp only
      rw [← hview, hend]
      dsimp only
      rw [loop]
      refine ⟨_, _, rfl, ?_⟩
      rw [keptLines, List.filter_cons_of_neg (by simpa using a2)]
      simpa [terminateLines] using hr
    · rw [hview, a1]
      dsimp only
      rw [appendString, List.append_assoc, List.drop_left]
      obtain ⟨r1, b1, b2⟩ := pushCString_text l post h0 result rs hr
      rw [b1]
      dsimp only
      rw [← List.append_assoc, ← hview, hend]
      dsimp only
      rw [loop]
      refine ⟨_, _, rfl, ?_⟩
      rw [keptLines, List.filter_cons_of_pos (by simpa using a2)]
      have := push_back_holds r1 _ 10 b2
      simpa [terminateLines] using this
  | cons l2 ls ih =>
    intro fuel pre pre' post l numLines result rs hgood h0 hr hview hcap hfuel
    obtain ⟨f, rfl⟩ : ∃ f, fuel = f + 1 := ⟨fuel - 1, by omega⟩
    have hg2 := hgood l2 (by simp)
    obtain ⟨pre2, post2, t1, t2, t3⟩ := strtok_lines pre' rest l2 ls hg2
    rw [loop, if_pos (by simp at hcap; omega)]
    rcases strstr_token pre post l needle h0 with ⟨m, a1, a2⟩ | ⟨a1, a2⟩
    · rw [hview, a1]
      dsimp only
      rw [← hview, t1]
      dsimp only
      obtain ⟨r, mem', e1, e2⟩ := ih f pre' pre2 post2 l2 numLines result rs
        (fun x hx => hgood x (by simp [hx])) hg2.2.2 hr t2
        (by simp at hcap ⊢; omega) (by simp at hfuel ⊢; omega)
      refine ⟨r, mem', e1, ?_⟩
      rw [keptLines, List.filter_cons_of_neg (by simpa using a2)]
      exact e2
    · rw [hview, a1]
      dsimp only
      rw [appendString, List.append_assoc, List.drop_left]
      obtain ⟨r1, b1, b2⟩ := pushCString_text l post h0 result rs hr
      rw [b1]
      dsimp only
      rw [← List.append_assoc, ← hview, t1]
      dsimp only
      obtain ⟨r, mem', e1, e2⟩ := ih f pre' pre2 post2 l2 (numLines + 1) (r1.push_back 10)
        (rs ++ l ++ [10]) (fun x hx => hgood x (by simp [hx])) hg2.2.2
        (push_back_holds r1 _ 10 b2) t2
        (by simp at hcap ⊢; omega) (by simp at hfuel ⊢; omega)
      refine ⟨r, mem', e1, ?_⟩
      rw [keptLines, List.filter_cons_of_pos (by simpa using a2), terminateLines_cons]
      simpa [keptLines, List.append_assoc] using e2

theorem removeLines_apply_spec (needle : List Nat) (v : CustomVector) (ls : List (List Nat))
    (h : NullTerminated v (([10] : List Nat).intercalate ls))
    (hgood : ∀ x ∈ ls, GoodLine x) (hcap : ls.length ≤ maxLines) :
    ∃ r, apply needle v = .ok r ∧ Holds r (terminateLines (keptLines needle ls)) := by
  obtain ⟨rest, hd⟩ := nullTerminated_data v _ h
  rw [apply, getData, hd]
  cases ls with
  | nil =>
    have := strtok_end [] rest
    simp only [List.nil_append, List.length_nil] at this
    simp only [List.intercalate, List.intersperse, List.flatten, List.map_nil, List.nil_append]
    rw [this]
    dsimp only
    rw [loop]
    dsimp only
    exact ⟨_, rfl, assign_holds _ _ _ holds_empty⟩
  | cons l ls =>
    have hg := hgood l (by simp)
    obtain ⟨pre', post, t1, t2, t3⟩ := strtok_lines [] rest l ls hg
    simp only [List.nil_append, List.length_nil] at t1 t2 t3
    have hle := length_le_intercalate (l :: ls) (fun x hx => (hgood x hx).1)
    obtain ⟨r, mem', e1, e2⟩ := removeLines_loop_spec needle rest ls
      ((pre' ++ (([10] : List Nat).intercalate ls).map some ++ some 0 :: rest).length + 1)
      [] pre' post l 0 empty [] (fun x hx => hgood x (by simp [hx])) hg.2.2 holds_empty
      (by simpa using t2) (by simp at hcap ⊢; omega)
      (by rw [t3]; simp at hle ⊢; omega)
    rw [t1]
    dsimp only
    simp only [List.length_nil] at e1
    rw [e1]
    dsimp only
    exact ⟨_, rfl, assign_holds _ _ _ (by simpa using e2)⟩

end RemoveLines

namespace RemoveDuplicateLines

theorem firstOccurrences_mem (ls : List (List Nat)) :
    ∀ l, l ∈ firstOccurrences ls ↔ l ∈ ls := by
  induction ls with
  | nil => intro l; simp [firstOccurrences]
  | cons x xs ih =>
    intro l
    rw [firstOccurrences, List.mem_cons, List.mem_cons, List.mem_filter, ih]
    by_cases h : l = x
    · simp [h]
    · simp [h]

theorem firstOccurrences_nodup (ls : List (List Nat)) : (firstOccurrences ls).Nodup := by
  induction ls with
  | nil => simp [firstOccurrences]
  | cons x xs ih =>
    rw [firstOccurrences, List.nodup_cons]
    exact ⟨by simp [List.mem_filter], ih.filter _⟩

theorem firstOccurrences_sublist (ls : List (List Nat)) : (firstOccurrences ls).Sublist ls := by
  induction ls with
  | nil => simp [firstOccurrences]
  | cons x xs ih =>
    rw [firstOccurrences]
    exact ((List.filter_sublist _).trans ih).cons₂ x

end RemoveDuplicateLines

/-! ## Compaction in place -/

theorem resize_holds (v : CustomVector) (ys : List Nat) (h : Holds v ys) (n : Nat)
    (hn : n ≤ ys.length) : Holds (v.resize n) (ys.take n) := by
  rw [holds_iff] at h ⊢
  obtain ⟨h1, h2, h3, h4⟩ := h
  rw [resize]
  by_cases hlt : n < v.size
  · rw [if_pos hlt]
    refine ⟨h1, by simp; omega, by simp; omega, fun k hk => ?_⟩
    simp only at hk
    rw [h4 k (by omega), List.getElem?_take, if_pos hk]
  · rw [if_neg hlt]
    have : n = ys.length := by omega
    subst this
    rw [List.take_length]
    exact ⟨h1, h2, h3, h4⟩

theorem take_succ_set (ys : List Nat) (w a : Nat) (hw : w < ys.length) :
    (ys.set w a).take (w + 1) = ys.take w ++ [a] := by
  apply List.ext_getElem?
  intro k
  rw [List.getElem?_take, List.getElem?_set, List.getElem?_append, List.length_take,
    List.getElem?_take]
  have hm : min w ys.length = w := by omega
  rw [hm]
  by_cases h1 : k < w
  · rw [if_pos (by omega), if_neg (by omega), if_pos h1, if_pos h1]
  · by_cases h2 : k = w
    · subst h2
      rw [if_pos (by omega), if_pos rfl, if_pos hw, if_neg h1]
      simp
    · rw [if_neg (by omega), if_neg h1]
      have : k - w ≠ 0 := by omega
      obtain ⟨m, hm2⟩ : ∃ m, k - w = m + 1 := ⟨k - w - 1, by omega⟩
      rw [hm2]
      rfl

namespace RemoveCharacter

theorem removeCharacter_loop_spec (c : Nat) (xs : List Nat) (n : Nat) :
    ∀ (read write : Nat) (data : CustomVector) (ys : List Nat), Holds data ys →
      ys.length = xs.length → write ≤ read → read + n = xs.length →
      ys.take write = (xs.take read).filter (fun x => decide (x ≠ c)) →
      ys.drop read = xs.drop read →
      ∃ d ys', loop c n read write data = .ok ((xs.filter (fun x => decide (x ≠ c))).length, d) ∧
        Holds d ys' ∧ ys'.length = xs.length ∧
        ys'.take (xs.filter (fun x => decide (x ≠ c))).length =
          xs.filter (fun x => decide (x ≠ c)) := by
  induction n with
  | zero =>
    intro read write data ys hd hl hw hr ht _
    have hread : read = xs.length := by omega
    subst hread
    rw [List.take_length] at ht
    have hwl : write = (xs.filter (fun x => decide (x ≠ c))).length := by
      rw [← ht, List.length_take]; omega
    refine ⟨data, ys, ?_, hd, hl, ?_⟩
    · rw [loop, hwl]
    · rw [← hwl]; exact ht
  | succ n ih =>
    intro read write data ys hd hl hw hr ht hdr
    have hlt : read < xs.length := by omega
    have hlt' : read < ys.length := by omega
    have hy : ys[read] = xs[read] := by
      have := congrArg (fun l => l[0]?) hdr
      simp only [List.getElem?_drop, Nat.add_zero, List.getElem?_eq_getElem hlt,
        List.getElem?_eq_getElem hlt', Option.some.injEq] at this
      exact this
    have hsub : data.subscript read = .ok xs[read] := by
      rw [subscript_of_holds _ _ hd, dif_pos hlt', hy]
    have hdr' : ys.drop (read + 1) = xs.drop (read + 1) := by
      have := congrArg (List.drop 1) hdr
      simpa [List.drop_drop, Nat.add_comm] using this
    rw [loop, hsub]
    dsimp only
    by_cases hc : xs[read] = c
    · rw [if_neg (by simpa using hc)]
      refine ih (read + 1) write data ys hd hl (by omega) (by omega) ?_ hdr'
      rw [List.take_succ, List.getElem?_eq_getElem hlt, List.filter_append, ← ht]
      simp [hc]
    · rw [if_pos hc]
      obtain ⟨a1, a2, _⟩ := subscriptAssign_holds data ys hd write xs[read] (by omega)
      have hsa : data.subscriptAssign write xs[read] =
          (.ok (), (data.subscriptAssign write xs[read]).2) := by
        rw [← a1]
      rw [hsa]
      dsimp only
      refine ih (read + 1) (write + 1) _ (ys.set write xs[read]) a2 (by simpa using hl)
        (by omega) (by omega) ?_ ?_
      · rw [List.take_succ (l := xs), List.getElem?_eq_getElem hlt, List.filter_append, ← ht,
          take_succ_set ys write xs[read] (by omega)]
        simp [hc]
      · rw [List.drop_set_of_lt _ _ (by omega)]
        exact hdr'

end RemoveCharacter

theorem set_of_getElem? (l : Storage) (i : Nat) (a : Option Nat) (h : l[i]? = some a) :
    l.set i a = l := by
  apply List.ext_getElem?
  intro k
  rw [List.getElem?_set]
  by_cases hk : i = k
  · subst hk
    have hlt : i < l.length := by
      by_contra hc
      rw [List.getElem?_eq_none (by omega)] at h
      cases h
    rw [if_pos rfl, if_pos hlt, h]
  · rw [if_neg hk]

namespace RemoveCharacter

theorem removeCharacter_apply_spec (c : Nat) (v : CustomVector) (xs : List Nat)
    (h : Holds v xs) :
    ∃ r, apply c v = .ok r ∧ Holds r (xs.filter (fun x => decide (x ≠ c))) := by
  obtain ⟨d, ys', e1, e2, e3, e4⟩ := removeCharacter_loop_spec c xs xs.length 0 0 v xs h rfl
    (Nat.le_refl 0) (by omega) rfl rfl
  have hle : (xs.filter (fun x => decide (x ≠ c))).length ≤ ys'.length := by
    rw [e3]; exact List.length_filter_le _ _
  refine ⟨d.resize (xs.filter (fun x => decide (x ≠ c))).length, ?_, ?_⟩
  · rw [apply, getSize, h.2.1, e1]
  · have := resize_holds d ys' e2 _ hle
    rw [e4] at this
    exact this

theorem removeCharacter_loop_noop (c : Nat) (xs : List Nat) (data : CustomVector)
    (h : Holds data xs) (hc : c ∉ xs) (n : Nat) :
    ∀ read, read + n = xs.length → loop c n read read data = .ok (xs.length, data) := by
  induction n with
  | zero => intro read hr; rw [loop]; simp at hr; rw [hr]
  | succ n ih =>
    intro read hr
    have hlt : read < xs.length := by omega
    have hsub : data.subscript read = .ok xs[read] := by
      rw [subscript_of_holds _ _ h, dif_pos hlt]
    have hne : xs[read] ≠ c := fun e => hc (e ▸ List.getElem_mem _)
    have hh := (holds_iff data xs).mp h
    have hget : data.data[read]? = some (some xs[read]) := by
      rw [hh.2.2.2 read (by omega), List.getElem?_eq_getElem hlt]
    have hsa : data.subscriptAssign read xs[read] = (.ok (), data) := by
      rw [subscriptAssign, if_neg (by omega), if_pos (by omega), set_of_getElem? _ _ _ hget]
    rw [loop, hsub]
    dsimp only
    rw [if_pos hne, hsa]
    exact ih (read + 1) (by omega)

theorem removeCharacter_apply_noop (c : Nat) (xs : List Nat) (v : CustomVector)
    (h : Holds v xs) (hc : c ∉ xs) : apply c v = .ok v := by
  rw [apply, getSize, h.2.1, removeCharacter_loop_noop c xs v h hc xs.length 0 (by omega)]
  dsimp only
  rw [resize, if_neg (by rw [h.2.1]; omega)]

end RemoveCharacter

namespace RemoveNewline

theorem removeNewline_loop_eq (n : Nat) :
    ∀ (i resIndex : Nat) (data : CustomVector),
      loop n i resIndex data = RemoveCharacter.loop 10 n i resIndex data := by
  induction n with
  | zero => intro i r d; rfl
  | succ n ih =>
    intro i r d
    rw [loop, RemoveCharacter.loop]
    cases hs : d.subscript i with
    | error e => rfl
    | ok b =>
      dsimp only
      by_cases hb : b = 10
      · rw [if_neg (by simpa using hb), if_neg (by simpa using hb)]
        exact ih _ _ _
      · rw [if_pos hb, if_pos hb]
        rcases hsa : d.subscriptAssign r b with ⟨res, d'⟩
        cases res with
        | error e => rfl
        | ok u => exact ih _ _ _

theorem removeNewline_apply_eq (data : CustomVector) :
    apply data = RemoveCharacter.apply 10 data := by
  rw [apply, RemoveCharacter.apply, removeNewline_loop_eq]

end RemoveNewline

namespace AddNewlineSentence

theorem addNewlineSentence_loop_spec (data : CustomVector) (xs : List Nat) (h : Holds data xs)
    (hsz : xs.length < sizeMod) (n : Nat) :
    ∀ (i : Nat) (result : CustomVector) (rs : List Nat), Holds result rs →
      i + n = xs.length →
      ∃ r, loop data xs.length n i result = .ok r ∧ Holds r (rs ++ withBreaksFrom xs n i) := by
  induction n with
  | zero =>
    intro i result rs hr _
    exact ⟨result, rfl, by simpa [withBreaksFrom] using hr⟩
  | succ n ih =>
    intro i result rs hr hi
    have hlt : i < xs.length := by omega
    have hsub : data.subscript i = .ok xs[i] := by
      rw [subscript_of_holds _ _ h, dif_pos hlt]
    have hm : (xs.length + sizeMod - 1) % sizeMod = xs.length - 1 := by
      have : xs.length + sizeMod - 1 = xs.length - 1 + sizeMod := by omega
      rw [this, Nat.add_mod_right, Nat.mod_eq_of_lt (by omega)]
    have h1 := push_back_holds result rs xs[i] hr
    rw [loop, hsub, hm, withBreaksFrom, List.getElem?_eq_getElem hlt]
    dsimp only
    have hplain : breakAfter xs i = false →
        ∃ r, loop data xs.length n (i + 1) (result.push_back xs[i]) = .ok r ∧
          Holds r (rs ++ ((if breakAfter xs i = true then [xs[i], 10] else [xs[i]]) ++
            withBreaksFrom xs n (i + 1))) := by
      intro hb
      obtain ⟨r, e1, e2⟩ := ih (i + 1) _ _ h1 (by omega)
      refine ⟨r, e1, ?_⟩
      rw [hb]
      simpa [List.append_assoc] using e2
    by_cases hp : xs[i] = 46 ∨ xs[i] = 33 ∨ xs[i] = 63
    · rw [if_pos hp]
      by_cases hnext : i < xs.length - 1
      · have hlt2 : i + 1 < xs.length := by omega
        have hsub2 : data.subscript (i + 1) = .ok xs[i + 1] := by
          rw [subscript_of_holds _ _ h, dif_pos hlt2]
        rw [if_pos hnext, hsub2]
        dsimp only
        by_cases hq : xs[i + 1] ≠ 10 ∧ xs[i + 1] ≠ 46 ∧ xs[i + 1] ≠ 0
        · rw [if_pos hq]
          have hb : breakAfter xs i = true := by
            rw [breakAfter, List.getElem?_eq_getElem hlt, List.getElem?_eq_getElem hlt2]
            simp only [decide_eq_true_eq]
            exact ⟨hp, hq⟩
          obtain ⟨r, e1, e2⟩ := ih (i + 1) _ _ (push_back_holds _ _ 10 h1) (by omega)
          refine ⟨r, e1, ?_⟩
          rw [hb]
          simpa [List.append_assoc] using e2
        · rw [if_neg hq]
          apply hplain
          rw [breakAfter, List.getElem?_eq_getElem hlt, List.getElem?_eq_getElem hlt2]
          simp only [decide_eq_false_iff_not]
          exact fun c => hq c.2
      · rw [if_neg hnext]
        apply hplain
        rw [breakAfter, List.getElem?_eq_getElem hlt, List.getElem?_eq_none (by omega)]
    · rw [if_neg hp]
      apply hplain
      rw [breakAfter, List.getElem?_eq_getElem hlt]
      cases xs[i + 1]? with
      | none => rfl
      | some y =>
        simp only [decide_eq_false_iff_not]
        exact fun c => hp c.1

theorem addNewlineSentence_apply_spec (v : CustomVector) (xs : List Nat) (h : Holds v xs)
    (hsz : xs.length < sizeMod) :
    ∃ r, apply v = .ok r ∧ Holds r (withSentenceBreaks xs) := by
  obtain ⟨r1, a1, a2⟩ := addNewlineSentence_loop_spec v xs h hsz xs.length 0 empty []
    holds_empty (by omega)
  rw [List.nil_append] at a2
  obtain ⟨d, b1, b2⟩ := pushFrom_holds r1 _ a2 r1.getSize 0 v.clear []
    (clear_holds v h.1) (by rw [getSize, a2.2.1]; omega)
  refine ⟨d, ?_, by simpa using b2⟩
  rw [apply]
  simp only [getSize, h.2.1, a1]
  exact b1

end AddNewlineSentence

namespace RemoveDuplicateLines

theorem firstOccurrences_of_nodup (ls : List (List Nat)) (h : ls.Nodup) :
    firstOccurrences ls = ls := by
  induction ls with
  | nil => rfl
  | cons l ls ih =>
    obtain ⟨h1, h2⟩ := List.nodup_cons.mp h
    rw [firstOccurrences, ih h2, List.filter_eq_self.mpr]
    intro k hk
    have : k ≠ l := fun e => h1 (e ▸ hk)
    simpa using this

end RemoveDuplicateLines

/-! ## Capacity -/

theorem push_back_capacity (v : CustomVector) (c : Nat) :
    (v.push_back c).capacity =
      if v.size = v.capacity then max 1 (2 * v.capacity) else v.capacity := by
  rw [push_back]
  by_cases h : v.size = v.capacity
  · rw [if_pos h, if_pos h]
    dsimp only
    split <;> omega
  · rw [if_neg h, if_neg h]

theorem push_back_size (v : CustomVector) (c : Nat) : (v.push_back c).size = v.size + 1 := by
  rw [push_back]
  split <;> rfl

theorem insert_capacity (v : CustomVector) (p b : Nat) (hp : p ≤ v.size) :
    (v.insert (v.begin.add p) b).2.capacity =
      if v.size = v.capacity then max 1 (2 * v.capacity) else v.capacity := by
  have hptr : (v.begin.add p).ptr = p := by simp [begin, Iterator.add]
  rw [CustomVector.insert, hptr]
  dsimp only
  rw [if_neg (by omega)]
  by_cases h : v.size = v.capacity
  · rw [if_pos h, if_pos h]
    dsimp only
    split <;> omega
  · rw [if_neg h, if_neg h]

theorem insert_size (v : CustomVector) (p b : Nat) (hp : p ≤ v.size) :
    (v.insert (v.begin.add p) b).2.size = v.size + 1 := by
  have hptr : (v.begin.add p).ptr = p := by simp [begin, Iterator.add]
  rw [CustomVector.insert, hptr]
  dsimp only
  rw [if_neg (by omega)]
  split <;> rfl

theorem insert_invalid (v : CustomVector) (p b : Nat) (hp : v.size < p) :
    (v.insert (v.begin.add p) b).2 = v := by
  have hptr : (v.begin.add p).ptr = p := by simp [begin, Iterator.add]
  rw [CustomVector.insert, hptr]
  dsimp only
  rw [if_pos hp]

theorem run_size_le_capacity (op : BufferOp) (v : CustomVector) (h : v.size ≤ v.capacity) :
    (op.run v).size ≤ (op.run v).capacity := by
  cases op with
  | push_back c =>
    rw [BufferOp.run, push_back_size, push_back_capacity]
    split <;> omega
  | insert p b =>
    rw [BufferOp.run]
    by_cases hp : p ≤ v.size
    · rw [insert_size v p b hp, insert_capacity v p b hp]
      split <;> omega
    · rw [insert_invalid v p b (by omega)]
      exact h
  | resize n =>
    rw [BufferOp.run, resize]
    split
    · show n ≤ v.capacity
      omega
    · exact h
  | clear => exact Nat.zero_le _

theorem runOps_size_le_capacity (ops : List BufferOp) :
    ∀ v : CustomVector, v.size ≤ v.capacity → (runOps ops v).size ≤ (runOps ops v).capacity := by
  induction ops with
  | nil => intro v h; exact h
  | cons op ops ih => intro v h; exact ih _ (run_size_le_capacity op v h)

namespace AddNewlineMaxChars

/-- Inserting a newline in front of the space of the text `a`, `k` newlines, space, `b` gives
the text with `k + 1` newlines. -/
theorem stuck_text_insert (k : Nat) :
    ((97 :: List.replicate k 10) ++ [32, 98]).take (k + 1) ++ [10] ++
        ((97 :: List.replicate k 10) ++ [32, 98]).drop (k + 1) =
      (97 :: List.replicate (k + 1) 10) ++ [32, 98] := by
  have hl : (97 :: List.replicate k 10).length = k + 1 := by simp
  rw [List.take_left' hl, List.drop_left' hl, List.replicate_succ']
  simp

theorem addNewlineMaxChars_stuck (fuel : Nat) :
    ∀ (k : Nat) (data : CustomVector),
      Holds data ((97 :: List.replicate k 10) ++ [32, 98]) →
      loop 1 fuel (k + 1) 0 data = .error .outOfFuel := by
  induction fuel with
  | zero => intro k data _; rfl
  | succ fuel ih =>
    intro k data h
    have hlen : ((97 :: List.replicate k 10) ++ [32, 98]).length = k + 3 := by simp
    have hget : ((97 :: List.replicate k 10) ++ [32, 98])[k + 1]? = some 32 := by
      rw [List.getElem?_append_right (by simp)]
      simp
    have hsub : data.subscript (k + 1) = .ok 32 := by
      rw [subscript_of_holds _ _ h, dif_pos (by omega)]
      have hlt : k + 1 < ((97 :: List.replicate k 10) ++ [32, 98]).length := by omega
      rw [List.getElem?_eq_getElem hlt] at hget
      rw [Option.some.inj hget]
    obtain ⟨a1, a2⟩ := insert_holds data _ h (k + 1) 10 (by omega)
    rw [stuck_text_insert] at a2
    have hins : data.insert (data.begin.add (k + 1)) 10 =
        (.ok (), (data.insert (data.begin.add (k + 1)) 10).2) := by
      rw [← a1]
    have hround : round 1 (k + 1) 0 data =
        .ok (0, (data.insert (data.begin.add (k + 1)) 10).2) := by
      rw [round, hsub]
      dsimp only
      rw [if_pos (by decide), if_pos (by decide), scanBack, hsub]
      dsimp only
      rw [if_pos (Or.inl rfl), hins]
      dsimp only
      rw [Nat.sub_self]
    rw [loop, if_pos (by rw [getSize, h.2.1]; omega), hround]
    exact ih (k + 1) _ a2

theorem addNewlineMaxChars_stuck_from_start (fuel : Nat) (data : CustomVector)
    (h : Holds data [97, 32, 98]) : apply 1 fuel data = .error .outOfFuel := by
  have hs0 : data.subscript 0 = .ok 97 := by
    rw [subscript_of_holds _ _ h, dif_pos (by decide)]; rfl
  have hs1 : data.subscript 1 = .ok 32 := by
    rw [subscript_of_holds _ _ h, dif_pos (by decide)]; rfl
  obtain ⟨a1, a2⟩ := insert_holds data _ h 1 10 (by decide)
  have hins : data.insert (data.begin.add 1) 10 =
      (.ok (), (data.insert (data.begin.add 1) 10).2) := by
    rw [← a1]
  have hr0 : round 1 0 0 data = .ok (1, data) := by
    rw [round, hs0]
    dsimp only
    rw [if_pos (by decide), if_pos (by decide), scanBack]
  have hr1 : round 1 1 1 data = .ok (0, (data.insert (data.begin.add 1) 10).2) := by
    rw [round, hs1]
    dsimp only
    rw [if_pos (by decide), if_pos (by decide), scanBack, hs1]
    dsimp only
    rw [if_pos (Or.inl rfl), hins]
  rw [apply]
  cases fuel with
  | zero => rfl
  | succ f =>
    rw [loop, if_pos (by rw [getSize, h.2.1]; decide), hr0]
    dsimp only
    cases f with
    | zero => rfl
    | succ g =>
      rw [loop, if_pos (by rw [getSize, h.2.1]; decide), hr1]
      exact addNewlineMaxChars_stuck g 1 _ a2

end AddNewlineMaxChars

theorem nullTerminated_pushAll (t : List Nat) (h0 : 0 ∉ t) :
    NullTerminated (pushAll empty (t ++ [0])) t := by
  have h := pushAll_holds (t ++ [0]) empty [] holds_empty
  rw [List.nil_append] at h
  obtain ⟨h1, h2, h3⟩ := h
  have hle : (pushAll empty (t ++ [0])).size ≤ (pushAll empty (t ++ [0])).data.length := by
    have := congrArg List.length h3
    simp only [List.length_take, List.length_map] at this
    omega
  refine ⟨h1, by omega, ?_, h0⟩
  rw [h2] at h3
  simpa using h3

namespace LexSortLines

theorem lexSort_split_overflow (rest : Storage) (ls : List (List Nat)) :
    ∀ (fuel : Nat) (pre pre' post : Storage) (l : List Nat) (acc : List (List Nat)),
      (∀ x ∈ ls, GoodLine x ∧ x.length < maxLineLen) →
      0 ∉ l → l.length < maxLineLen →
      pre' ++ (([10] : List Nat).intercalate ls).map some ++ some 0 :: rest =
        pre ++ l.map some ++ some 0 :: post →
      maxLines < acc.length + 1 + ls.length → ls.length + 1 < fuel →
      split fuel (pre' ++ (([10] : List Nat).intercalate ls).map some ++ some 0 :: rest)
          (some pre.length) pre'.length acc = .error .undefinedBehaviour := by
  induction ls with
  | nil =>
    intro fuel pre pre' post l acc _ h0 hlen hview hcap hfuel
    obtain ⟨f, rfl⟩ : ∃ f, fuel = f + 1 := ⟨fuel - 1, by omega⟩
    rw [split, hview, cstringAt_token pre post l h0]
    dsimp only
    rw [if_neg (fun c => by simp at hcap; omega)]
  | cons l2 ls ih =>
    intro fuel pre pre' post l acc hgood h0 hlen hview hcap hfuel
    obtain ⟨f, rfl⟩ : ∃ f, fuel = f + 1 := ⟨fuel - 1, by omega⟩
    obtain ⟨hg2, hlen2⟩ := hgood l2 (by simp)
    obtain ⟨pre2, post2, t1, t2, t3⟩ := strtok_lines pre' rest l2 ls hg2
    rw [split, hview, cstringAt_token pre post l h0]
    dsimp only
    by_cases hroom : acc.length < maxLines
    · rw [if_pos ⟨hroom, hlen⟩, ← hview, t1]
      dsimp only
      exact ih f pre' pre2 post2 l2 (acc ++ [l]) (fun x hx => hgood x (by simp [hx]))
        hg2.2.2 hlen2 t2 (by simp at hcap ⊢; omega) (by simp at hfuel ⊢; omega)
    · rw [if_neg (fun c => hroom c.1)]

theorem lexSort_apply_overflow (v : CustomVector) (ls : List (List Nat))
    (h : NullTerminated v (([10] : List Nat).intercalate ls))
    (hgood : ∀ x ∈ ls, GoodLine x ∧ x.length < maxLineLen) (hcap : maxLines < ls.length) :
    apply v = .error .undefinedBehaviour := by
  obtain ⟨rest, hd⟩ := nullTerminated_data v _ h
  cases ls with
  | nil => simp at hcap
  | cons l ls =>
    obtain ⟨hg, hlen⟩ := hgood l (by simp)
    obtain ⟨pre', post, t1, t2, t3⟩ := strtok_lines [] rest l ls hg
    simp only [List.nil_append, List.length_nil] at t1 t2 t3
    have hle := length_le_intercalate (l :: ls) (fun x hx => (hgood x hx).1.1)
    have e1 := lexSort_split_overflow rest ls
      ((pre' ++ (([10] : List Nat).intercalate ls).map some ++ some 0 :: rest).length + 1)
      [] pre' post l [] (fun x hx => hgood x (by simp [hx])) hg.2.2 hlen
      (by simpa using t2) (by simp at hcap ⊢; omega)
      (by rw [t3]; simp at hle ⊢; omega)
    rw [apply, getData, hd, t1]
    dsimp only
    simp only [List.length_nil] at e1
    rw [e1]

end LexSortLines

theorem zero_not_mem_intercalate (ls : List (List Nat)) (h : ∀ x ∈ ls, 0 ∉ x) :
    0 ∉ ([10] : List Nat).intercalate ls := by
  induction ls with
  | nil => simp [List.intercalate]
  | cons l ls ih =>
    by_cases hne : ls = []
    · subst hne
      rw [intercalate_singleton]
      exact h l (by simp)
    · rw [intercalate_cons_of_ne_nil _ _ _ hne]
      intro hm
      rcases List.mem_append.mp hm with h1 | h1
      · rcases List.mem_append.mp h1 with h2 | h2
        · exact h l (by simp) h2
        · simp at h2
      · exact ih (fun x hx => h x (by simp [hx])) h1

namespace ReplaceString

theorem replaceString_empty_old_stuck (data : CustomVector) (new : List Nat) (dataSize : Nat)
    (hpos : 0 < dataSize) (fuel : Nat) :
    ∀ result : CustomVector, loop data [] new dataSize fuel 0 result = .error .outOfFuel := by
  induction fuel with
  | zero => intro result; rfl
  | succ fuel ih =>
    intro result
    have hwrap : ((0 + (([] : List Nat).length + sizeMod - 1) % sizeMod) % sizeMod + 1) %
        sizeMod = 0 := by decide
    rw [loop, if_pos hpos, if_pos (by simp), isMatch]
    dsimp only
    rw [hwrap]
    exact ih _

end ReplaceString

/-! ## Wrapping -/

theorem sameOrNewlineInserted_filter (xs ys : List Nat) (h : SameOrNewlineInserted xs ys) :
    ys.filter (fun x => decide (x ≠ 10)) = xs.filter (fun x => decide (x ≠ 10)) ∧
      xs.length ≤ ys.length := by
  rcases h with h | ⟨p, hp, _, h⟩
  · subst h; exact ⟨rfl, Nat.le_refl _⟩
  · subst h
    constructor
    · have h10 : ([10] : List Nat).filter (fun x => decide (x ≠ 10)) = [] := rfl
      rw [List.filter_append, List.filter_append, h10, List.append_nil,
        ← List.filter_append, List.take_append_drop]
    · simp; omega

namespace AddNewlineMaxChars

theorem scanBack_spec (i : Nat) (xs : List Nat) (data : CustomVector) (h : Holds data xs)
    (j : Nat) :
    ∀ currLineLen, j < xs.length →
      ∃ c d ys, scanBack i j currLineLen data = .ok (c, d) ∧ Holds d ys ∧
        SameOrNewlineInserted xs ys := by
  induction j with
  | zero => intro c _; exact ⟨c, data, xs, rfl, h, Or.inl rfl⟩
  | succ j ih =>
    intro c hj
    have hsub : data.subscript (j + 1) = .ok xs[j + 1] := by
      rw [subscript_of_holds _ _ h, dif_pos hj]
    rw [scanBack, hsub]
    dsimp only
    by_cases hit : xs[j + 1] = 32 ∨ xs[j + 1] = 10
    · rw [if_pos hit]
      obtain ⟨a1, a2⟩ := insert_holds data xs h (j + 1) 10 (by omega)
      have hins : data.insert (data.begin.add (j + 1)) 10 =
          (.ok (), (data.insert (data.begin.add (j + 1)) 10).2) := by
        rw [← a1]
      rw [hins]
      refine ⟨_, _, _, rfl, a2, Or.inr ⟨j + 1, hj, ?_, rfl⟩⟩
      rw [List.getElem?_eq_getElem hj]
      rcases hit with e | e
      · exact Or.inl (by rw [e])
      · exact Or.inr (by rw [e])
    · rw [if_neg hit]
      exact ih c (by omega)

theorem round_spec (maxCharsK : Int) (i currLineLen : Nat) (xs : List Nat)
    (data : CustomVector) (h : Holds data xs) (hi : i < xs.length) :
    ∃ c d ys, round maxCharsK i currLineLen data = .ok (c, d) ∧ Holds d ys ∧
      SameOrNewlineInserted xs ys := by
  have hsub : data.subscript i = .ok xs[i] := by
    rw [subscript_of_holds _ _ h, dif_pos hi]
  rw [round, hsub]
  dsimp only
  generalize (if xs[i] ≠ 10 then currLineLen + 1 else currLineLen) = c
  by_cases hc : c ≥ castSize maxCharsK
  · rw [if_pos hc]
    exact scanBack_spec i xs data h i c hi
  · rw [if_neg hc]
    exact ⟨c, data, xs, rfl, h, Or.inl rfl⟩

theorem afterRounds_spec (maxCharsK : Int) (k : Nat) :
    ∀ (i currLineLen : Nat) (data : CustomVector) (xs : List Nat), Holds data xs →
      ∃ i' c d ys, afterRounds maxCharsK k i currLineLen data = .ok (i', c, d) ∧ Holds d ys ∧
        ys.filter (fun x => decide (x ≠ 10)) = xs.filter (fun x => decide (x ≠ 10)) ∧
        xs.length ≤ ys.length := by
  induction k with
  | zero => intro i c data xs h; exact ⟨i, c, data, xs, rfl, h, rfl, Nat.le_refl _⟩
  | succ k ih =>
    intro i c data xs h
    rw [afterRounds]
    by_cases hi : i < data.getSize
    · rw [if_pos hi]
      obtain ⟨c1, d1, ys1, e1, e2, e3⟩ := round_spec maxCharsK i c xs data h
        (by rw [getSize, h.2.1] at hi; exact hi)
      obtain ⟨f1, f2⟩ := sameOrNewlineInserted_filter xs ys1 e3
      obtain ⟨i', c', d, ys, g1, g2, g3, g4⟩ := ih (i + 1) c1 d1 ys1 e2
      rw [e1]
      exact ⟨i', c', d, ys, g1, g2, g3.trans f1, Nat.le_trans f2 g4⟩
    · rw [if_neg hi]
      exact ⟨i, c, data, xs, rfl, h, rfl, Nat.le_refl _⟩

theorem loop_result_spec (maxCharsK : Int) (fuel : Nat) :
    ∀ (i currLineLen : Nat) (data : CustomVector) (xs : List Nat) (r : CustomVector),
      Holds data xs → loop maxCharsK fuel i currLineLen data = .ok r →
      ∃ ys, Holds r ys ∧
        ys.filter (fun x => decide (x ≠ 10)) = xs.filter (fun x => decide (x ≠ 10)) ∧
        xs.length ≤ ys.length := by
  induction fuel with
  | zero => intro i c data xs r _ hl; rw [loop] at hl; cases hl
  | succ fuel ih =>
    intro i c data xs r h hl
    rw [loop] at hl
    by_cases hi : i < data.getSize
    · rw [if_pos hi] at hl
      obtain ⟨c1, d1, ys1, e1, e2, e3⟩ := round_spec maxCharsK i c xs data h
        (by rw [getSize, h.2.1] at hi; exact hi)
      obtain ⟨f1, f2⟩ := sameOrNewlineInserted_filter xs ys1 e3
      rw [e1] at hl
      obtain ⟨ys, g1, g2, g3⟩ := ih (i + 1) c1 d1 ys1 r e2 hl
      exact ⟨ys, g1, g2.trans f1, Nat.le_trans f2 g3⟩
    · rw [if_neg hi] at hl
      cases hl
      exact ⟨xs, h, rfl, Nat.le_refl _⟩

end AddNewlineMaxChars

namespace AddNewlineMaxChars

theorem loop_of_afterRounds (maxCharsK : Int) (k : Nat) :
    ∀ (i currLineLen : Nat) (data : CustomVector) (i' c : Nat) (d : CustomVector),
      afterRounds maxCharsK k i currLineLen data = .ok (i', c, d) → ¬ i' < d.getSize →
      loop maxCharsK (k + 1) i currLineLen data = .ok d := by
  induction k with
  | zero =>
    intro i cl data i' c d ha hend
    rw [afterRounds] at ha
    cases ha
    rw [loop, if_neg hend]
  | succ k ih =>
    intro i cl data i' c d ha hend
    rw [afterRounds] at ha
    rw [loop]
    by_cases hi : i < data.getSize
    · rw [if_pos hi] at ha ⊢
      cases hr : round maxCharsK i cl data with
      | error e => rw [hr] at ha; cases ha
      | ok p =>
        obtain ⟨c1, d1⟩ := p
        rw [hr] at ha
        exact ih (i + 1) c1 d1 i' c d ha hend
    · rw [if_neg hi] at ha ⊢
      cases ha
      rfl

end AddNewlineMaxChars

/-- What `RemoveLines::apply` does as it is written: on a null-terminated buffer whose text is
the lines `ls` joined by newlines, with at most 1000 lines, each of them not empty and without
a newline or a zero byte, it returns and leaves the buffer holding the lines of `ls` that do
not contain the needle, in the order of `ls`, every one of them followed by a newline. -/
theorem removeLines_keeps_lines_without_needle (needle : List Nat) (v : CustomVector)
    (ls : List (List Nat)) (h : NullTerminated v (([10] : List Nat).intercalate ls))
    (hgood : ∀ x ∈ ls, GoodLine x) (hcap : ls.length ≤ maxLines) (_hn : needle ≠ []) :
    ∃ r, RemoveLines.apply needle v = .ok r ∧
      Holds r (terminateLines (keptLines needle ls)) ∧
      (∀ l, l ∈ keptLines needle ls ↔ l ∈ ls ∧ ¬ needle <:+: l) ∧
      (keptLines needle ls).Sublist ls := by
  obtain ⟨r, e1, e2⟩ := RemoveLines.removeLines_apply_spec needle v ls h hgood hcap
  refine ⟨r, e1, e2, fun l => ?_, List.filter_sublist ls⟩
  simp [keptLines]

/-- The lines "cat", "dog", "cow" and the needle "o": only "cat" is kept. -/
theorem removeLines_keeps_cat :
    ∃ r, RemoveLines.apply (bytes "o") (pushAll empty (bytes "cat\ndog\ncow" ++ [0])) = .ok r ∧
      Holds r (terminateLines (keptLines (bytes "o") [bytes "cat", bytes "dog", bytes "cow"])) ∧
      (∀ l, l ∈ keptLines (bytes "o") [bytes "cat", bytes "dog", bytes "cow"] ↔
        l ∈ [bytes "cat", bytes "dog", bytes "cow"] ∧ ¬ bytes "o" <:+: l) ∧
      (keptLines (bytes "o") [bytes "cat", bytes "dog", bytes "cow"]).Sublist
        [bytes "cat", bytes "dog", bytes "cow"] :=
  removeLines_keeps_lines_without_needle (bytes "o")
    (pushAll empty (bytes "cat\ndog\ncow" ++ [0])) [bytes "cat", bytes "dog", bytes "cow"]
    (by decide) (by decide) (by decide) (by decide)

/-! ## The claims -/

/-- Claim C1: appending the bytes `bs` one by one to an empty buffer gives a buffer whose size is
the number of bytes appended and in which reading index `i` returns the `i`-th appended byte for
every `i` below that number (and raises the out-of-range condition from there on), whatever the
number of capacity doublings on the way. -/
theorem push_back_sequence_reads_back (bs : List Nat) :
    (pushAll empty bs).getSize = bs.length ∧
      ∀ i, (pushAll empty bs).subscript i =
        match bs[i]? with
        | some b => .ok b
        | none => .error .indexOutOfRange := by
  have h := pushAll_holds bs empty [] holds_empty
  rw [List.nil_append] at h
  refine ⟨h.2.1, fun i => ?_⟩
  rw [subscript_of_holds _ _ h]
  by_cases hi : i < bs.length
  · rw [dif_pos hi, List.getElem?_eq_getElem hi]
  · rw [dif_neg hi, List.getElem?_eq_none (by omega)]

/-- Claim C2: on a buffer holding `xs`, indexed access fails with the out-of-range condition
exactly when the index is at least the length; below the length it yields the element at that
index, and a write through it succeeds, keeps the size, stores the byte at that index and leaves
every other index as it was; at or beyond the length the write fails too and the buffer is left
as it was, so no index is ever clamped. -/
theorem subscript_bounds_checked (v : CustomVector) (xs : List Nat) (h : Holds v xs)
    (i c : Nat) :
    (v.subscript i = .error .indexOutOfRange ↔ xs.length ≤ i) ∧
    (v.subscript i = match xs[i]? with
        | some b => .ok b
        | none => .error .indexOutOfRange) ∧
    (i < xs.length →
      (v.subscriptAssign i c).1 = .ok () ∧
      (v.subscriptAssign i c).2.getSize = v.getSize ∧
      (v.subscriptAssign i c).2.subscript i = .ok c ∧
      ∀ j, j ≠ i → (v.subscriptAssign i c).2.subscript j = v.subscript j) ∧
    (xs.length ≤ i → v.subscriptAssign i c = (.error .indexOutOfRange, v)) := by
  have hs := subscript_of_holds v xs h
  refine ⟨?_, ?_, ?_, ?_⟩
  · rw [hs]
    by_cases hi : i < xs.length
    · rw [dif_pos hi]
      constructor
      · intro e; cases e
      · intro h'; omega
    · rw [dif_neg hi]
      exact ⟨fun _ => by omega, fun _ => rfl⟩
  · rw [hs]
    by_cases hi : i < xs.length
    · rw [dif_pos hi, List.getElem?_eq_getElem hi]
    · rw [dif_neg hi, List.getElem?_eq_none (by omega)]
  · intro hi
    obtain ⟨a1, a2, _⟩ := subscriptAssign_holds v xs h i c hi
    have hs2 := subscript_of_holds _ _ a2
    refine ⟨a1, ?_, ?_, fun j hj => ?_⟩
    · rw [getSize, getSize, a2.2.1, h.2.1, List.length_set]
    · rw [hs2, dif_pos (by simpa using hi)]
      simp
    · rw [hs2, hs]
      by_cases hj2 : j < xs.length
      · rw [dif_pos (by simpa using hj2), dif_pos hj2]
        simp [List.getElem_set, Ne.symm hj]
      · rw [dif_neg (by simpa using hj2), dif_neg hj2]
  · intro hi
    rw [subscriptAssign, if_pos (by have := h.2.1; omega)]

/-- Witness of C2: the buffer built from the bytes 7, 8, 9, read and written at index 1. -/
theorem subscript_bounds_checked_witness :
    Holds (pushAll empty [7, 8, 9]) [7, 8, 9] ∧
      (pushAll empty [7, 8, 9]).subscript 1 = .ok 8 ∧
      ((pushAll empty [7, 8, 9]).subscriptAssign 1 5).2.subscript 1 = .ok 5 :=
  have h : Holds (pushAll empty [7, 8, 9]) [7, 8, 9] := by decide
  ⟨h, (subscript_bounds_checked _ _ h 1 5).2.1,
    ((subscript_bounds_checked _ _ h 1 5).2.2.1 (by decide)).2.2.1⟩

/-- Claim C3: on a buffer holding `xs`, inserting the byte `b` at the position `begin() + p`
fails with the invalid-position condition and leaves the buffer as it was when `p` is beyond the
length; otherwise, whether the buffer is full or not, it succeeds and leaves the buffer holding
`xs[0..p) ++ [b] ++ xs[p..)`, one byte longer, from which erasing index `p` gives `xs` back. -/
theorem insert_at_position (v : CustomVector) (xs : List Nat) (h : Holds v xs) (p b : Nat) :
    (xs.length < p → v.insert (v.begin.add p) b = (.error .invalidPosition, v)) ∧
    (p ≤ xs.length →
      (v.insert (v.begin.add p) b).1 = .ok () ∧
      Holds (v.insert (v.begin.add p) b).2 (xs.take p ++ [b] ++ xs.drop p) ∧
      (v.insert (v.begin.add p) b).2.getSize = xs.length + 1 ∧
      (xs.take p ++ [b] ++ xs.drop p).eraseIdx p = xs) := by
  constructor
  · intro hp
    have hptr : (v.begin.add p).ptr = p := by simp [begin, Iterator.add]
    rw [CustomVector.insert, hptr]
    dsimp only
    rw [if_pos (by have := h.2.1; omega)]
  · intro hp
    obtain ⟨a1, a2⟩ := insert_holds v xs h p b hp
    refine ⟨a1, a2, ?_, eraseIdx_insertAt xs b p hp⟩
    rw [getSize, a2.2.1]
    simp; omega

/-- Witness of C3: inserting into the full buffer built from 7, 8 and into the one built from
7, 8, 9, which has a free slot. -/
theorem insert_at_position_witness :
    Holds (pushAll empty [7, 8]) [7, 8] ∧
      Holds ((pushAll empty [7, 8]).insert ((pushAll empty [7, 8]).begin.add 1) 5).2
        ([7, 8].take 1 ++ [5] ++ [7, 8].drop 1) ∧
      Holds (pushAll empty [7, 8, 9]) [7, 8, 9] ∧
      Holds ((pushAll empty [7, 8, 9]).insert ((pushAll empty [7, 8, 9]).begin.add 3) 5).2
        ([7, 8, 9].take 3 ++ [5] ++ [7, 8, 9].drop 3) :=
  have h : Holds (pushAll empty [7, 8]) [7, 8] := by decide
  have h' : Holds (pushAll empty [7, 8, 9]) [7, 8, 9] := by decide
  ⟨h, ((insert_at_position _ _ h 1 5).2 (by decide)).2.1,
    h', ((insert_at_position _ _ h' 3 5).2 (by decide)).2.1⟩

/-- Claim C4: on a buffer holding `xs`, with both strings present and `old` not empty (and the
sizes within `size_t`), `ReplaceString(old, new).apply` returns and leaves the buffer holding
`replaceAll old new xs`, where `replaceAll` is the leftmost-first replacement without overlap:
it maps the empty text to itself, maps a text that `old` is a prefix of to `new` followed by the
image of the text without its first `|old|` bytes, and otherwise keeps the first byte and goes
on with the rest. Replacing "aa" by "b" in "aaaa" leaves "bb". -/
theorem replaceString_leftmost_first (v : CustomVector) (xs old new : List Nat)
    (h : Holds v xs) (hold : old ≠ []) (hsz : xs.length + old.length < sizeMod) :
    (∃ r, ReplaceString.apply (some old) (some new) v = .ok r ∧
      Holds r (ReplaceString.replaceAll old new xs)) ∧
    ReplaceString.replaceAll old new [] = [] ∧
    (∀ ys, old <+: ys → ReplaceString.replaceAll old new ys =
      new ++ ReplaceString.replaceAll old new (ys.drop old.length)) ∧
    (∀ y ys, ¬ old <+: (y :: ys) → ReplaceString.replaceAll old new (y :: ys) =
      y :: ReplaceString.replaceAll old new ys) ∧
    (∃ r, ReplaceString.apply (some (bytes "aa")) (some (bytes "b"))
        (pushAll empty (bytes "aaaa")) = .ok r ∧ Holds r (bytes "bb")) := by
  refine ⟨?_, ReplaceString.replaceAll_nil old new, ?_, ?_, ⟨_, rfl, by decide⟩⟩
  · obtain ⟨r, e1, e2⟩ := ReplaceString.replaceString_loop_spec v xs h old new hold hsz (xs.length + 1) 0
      empty [] holds_empty (by omega) (by omega)
    rw [List.nil_append, List.drop_zero] at e2
    obtain ⟨d, e3, e4⟩ := pushFrom_holds r _ e2 r.getSize 0 v.clear []
      (clear_holds v h.1) (by rw [getSize, e2.2.1]; omega)
    refine ⟨d, ?_, by simpa using e4⟩
    rw [ReplaceString.apply]
    simp only [getSize, h.2.1, e1]
    exact e3
  · intro ys hp
    cases ys with
    | nil =>
      have : old = [] := List.prefix_nil.mp hp
      exact absurd this hold
    | cons y ys =>
      rw [ReplaceString.replaceAll_cons,
        if_pos ⟨hold, List.isPrefixOf_iff_prefix.mpr hp⟩]
  · intro y ys hp
    rw [ReplaceString.replaceAll_cons, if_neg]
    rintro ⟨_, hq⟩
    exact hp (List.isPrefixOf_iff_prefix.mp hq)

/-- Witness of C4: replacing "ab" by "xyz" in a buffer built from "cabab". -/
theorem replaceString_leftmost_first_witness :
    ∃ r, ReplaceString.apply (some (bytes "ab")) (some (bytes "xyz"))
        (pushAll empty (bytes "cabab")) = .ok r ∧
      Holds r (ReplaceString.replaceAll (bytes "ab") (bytes "xyz") (bytes "cabab")) :=
  (replaceString_leftmost_first (pushAll empty (bytes "cabab")) (bytes "cabab") (bytes "ab")
    (bytes "xyz") (by decide) (by decide) (by decide)).1

/-- Claim C5: on a null-terminated buffer whose text is `t`, with a needle that is not empty,
`RemoveString(needle).apply` returns and leaves the buffer holding `t` with the occurrences of
the needle deleted leftmost first and without overlap, which is the replacement of the needle by
the empty string; the size it leaves is the number of bytes kept. Removing "warlock" from
"The warlock casts hope." leaves "The  casts hope.". -/
theorem removeString_deletes_leftmost_first (v : CustomVector) (t needle : List Nat)
    (h : NullTerminated v t) (hn : needle ≠ []) :
    (∃ r, RemoveString.apply needle v = .ok r ∧
      Holds r (ReplaceString.replaceAll needle [] t) ∧
      r.getSize = (ReplaceString.replaceAll needle [] t).length) ∧
    (∃ r, RemoveString.apply (bytes "warlock")
        (pushAll empty (bytes "The warlock casts hope." ++ [0])) = .ok r ∧
      Holds r (bytes "The  casts hope.")) := by
  refine ⟨?_, ⟨_, rfl, by decide⟩⟩
  obtain ⟨r, e1, e2⟩ := RemoveString.removeString_apply_spec v t needle h hn
  exact ⟨r, e1, e2, e2.2.1⟩

/-- Witness of C5: removing "ab" from the null-terminated text "cababd". -/
theorem removeString_deletes_leftmost_first_witness :
    ∃ r, RemoveString.apply (bytes "ab") (pushAll empty (bytes "cababd" ++ [0])) = .ok r ∧
      Holds r (ReplaceString.replaceAll (bytes "ab") [] (bytes "cababd")) ∧
      r.getSize = (ReplaceString.replaceAll (bytes "ab") [] (bytes "cababd")).length :=
  (removeString_deletes_leftmost_first (pushAll empty (bytes "cababd" ++ [0])) (bytes "cababd")
    (bytes "ab") (by decide) (by decide)).1

/-- Claim C6, evaluated where it fails: `applyTransformations` is the left fold of the buffer
through the list of transforms, as the claim says: none applied to the empty list, and for
`t :: ts` the transform `t` applied once to the buffer, then the rest of the list applied to the
buffer `t` left. But the buffer that `concatenate` builds from a source holding
"The warlock casts hope." has these 23 bytes and no terminator behind them, in a storage of 32
slots of which the last 9 were never written; `RemoveString("warlock")` reads on from byte 23
in search of a zero byte, so the list `[RemoveString("warlock"), RemoveNewline]` leaves the
defined behaviour and no content "The  casts hope." is guaranteed. Only when a zero byte is
stored as byte 24 of the content does the list leave "The  casts hope.". -/
theorem applyTransformations_folds_unterminated_input :
    (∀ (ts : List TextTransform) (v : CustomVector),
      applyTransformations ts v = foldTransforms ts v) ∧
    (∀ v : CustomVector, applyTransformations [] v = .ok v) ∧
    (∀ (t : TextTransform) (ts : List TextTransform) (v : CustomVector),
      applyTransformations (t :: ts) v =
        match t.apply v with
        | .ok w => applyTransformations ts w
        | .error e => .error e) ∧
    concatenate empty (pushAll empty (bytes "The warlock casts hope." ++ [0])).getData =
      .ok (pushAll empty (bytes "The warlock casts hope.")) ∧
    Holds (pushAll empty (bytes "The warlock casts hope.")) (bytes "The warlock casts hope.") ∧
    (pushAll empty (bytes "The warlock casts hope.")).getSize = 23 ∧
    (pushAll empty (bytes "The warlock casts hope.")).getData.drop 23 = List.replicate 9 none ∧
    RemoveString.apply (bytes "warlock") (pushAll empty (bytes "The warlock casts hope.")) =
      .error .undefinedBehaviour ∧
    applyTransformations [⟨RemoveString.apply (bytes "warlock")⟩, ⟨RemoveNewline.apply⟩]
      (pushAll empty (bytes "The warlock casts hope.")) = .error .undefinedBehaviour ∧
    (∃ v1 v2,
      RemoveString.apply (bytes "warlock")
        (pushAll empty (bytes "The warlock casts hope." ++ [0])) = .ok v1 ∧
      applyTransformations [⟨RemoveString.apply (bytes "warlock")⟩, ⟨RemoveNewline.apply⟩]
        (pushAll empty (bytes "The warlock casts hope." ++ [0])) = .ok v2 ∧
      Holds v1 (bytes "The  casts hope.") ∧ Holds v2 (bytes "The  casts hope.")) := by
  have key : ∀ (ts : List TextTransform) (v : CustomVector),
      applyTransformations ts v = foldTransforms ts v := by
    intro ts v
    rw [applyTransformations, applyLoop_eq_fold ts ts.length 0 v (by omega), List.drop_zero]
  refine ⟨key, fun v => rfl, fun t ts v => ?_, rfl, by decide, rfl, rfl, rfl, rfl,
    ⟨_, _, rfl, rfl, by decide, by decide⟩⟩
  rw [key, foldTransforms]
  cases t.apply v with
  | error e => rfl
  | ok w => exact (key ts w).symm

/-- Claim C7: on a null-terminated buffer whose text is the lines `ls` joined by newlines, with
at most 1000 lines, each of them not empty, shorter than 1000 bytes and without a newline or a
zero byte, `LexSortLines.apply` returns and leaves the buffer holding lines `out` joined by
newlines, without a newline after the last one, where `out` is a permutation of `ls` in which
every line is at most the lines after it in the lexicographic order of byte lists (it is `ls`
sorted). The lines "banana", "apple", "cherry" give "apple\nbanana\ncherry". -/
theorem lexSortLines_sorts_lines (v : CustomVector) (ls : List (List Nat))
    (h : NullTerminated v (([10] : List Nat).intercalate ls))
    (hgood : ∀ x ∈ ls, GoodLine x ∧ x.length < maxLineLen) (hcap : ls.length ≤ maxLines) :
    (∃ r out, LexSortLines.apply v = .ok r ∧
      Holds r (([10] : List Nat).intercalate out) ∧
      out.Perm ls ∧ out.Sorted (· ≤ ·) ∧ out = ls.insertionSort (· ≤ ·)) ∧
    (∃ r, LexSortLines.apply (pushAll empty (bytes "banana\napple\ncherry" ++ [0])) = .ok r ∧
      Holds r (bytes "apple\nbanana\ncherry")) := by
  refine ⟨?_, ⟨_, rfl, by decide⟩⟩
  obtain ⟨r, e1, e2⟩ := LexSortLines.lexSort_apply_spec v ls h hgood hcap
  exact ⟨r, _, e1, e2, List.perm_insertionSort _ ls, List.sorted_insertionSort _ ls, rfl⟩

/-- Witness of C7: the lines "pear", "fig", "apple". -/
theorem lexSortLines_sorts_lines_witness :
    ∃ r out, LexSortLines.apply (pushAll empty (bytes "pear\nfig\napple" ++ [0])) = .ok r ∧
      Holds r (([10] : List Nat).intercalate out) ∧
      out.Perm [bytes "pear", bytes "fig", bytes "apple"] ∧ out.Sorted (· ≤ ·) ∧
      out = [bytes "pear", bytes "fig", bytes "apple"].insertionSort (· ≤ ·) :=
  (lexSortLines_sorts_lines (pushAll empty (bytes "pear\nfig\napple" ++ [0]))
    [bytes "pear", bytes "fig", bytes "apple"] (by decide) (by decide) (by decide)).1

/-- Claim C8: on a null-terminated buffer whose text is the lines `ls` joined by newlines, with
at most 1000 lines, each of them not empty, shorter than 1000 bytes and without a newline or a
zero byte, `RemoveDuplicateLines.apply` returns and leaves the buffer holding the first
occurrence of every line of `ls`, in the order of `ls`, joined by newlines, without a newline
after the last one; these lines are pairwise different, they are the lines that occur in `ls`,
and dropping lines from `ls` gives them. The text "a\nb\na\nc\nb" gives "a\nb\nc". -/
theorem removeDuplicateLines_keeps_first (v : CustomVector) (ls : List (List Nat))
    (h : NullTerminated v (([10] : List Nat).intercalate ls))
    (hgood : ∀ x ∈ ls, GoodLine x ∧ x.length < maxLineLen) (hcap : ls.length ≤ maxLines) :
    (∃ r, RemoveDuplicateLines.apply v = .ok r ∧
      Holds r (([10] : List Nat).intercalate (RemoveDuplicateLines.firstOccurrences ls))) ∧
    (RemoveDuplicateLines.firstOccurrences ls).Nodup ∧
    (∀ l, l ∈ RemoveDuplicateLines.firstOccurrences ls ↔ l ∈ ls) ∧
    (RemoveDuplicateLines.firstOccurrences ls).Sublist ls ∧
    (∃ r, RemoveDuplicateLines.apply (pushAll empty (bytes "a\nb\na\nc\nb" ++ [0])) = .ok r ∧
      Holds r (bytes "a\nb\nc")) :=
  ⟨RemoveDuplicateLines.dedup_apply_spec v ls h hgood hcap,
    RemoveDuplicateLines.firstOccurrences_nodup ls,
    RemoveDuplicateLines.firstOccurrences_mem ls,
    RemoveDuplicateLines.firstOccurrences_sublist ls, ⟨_, rfl, by decide⟩⟩

/-- Witness of C8: the lines "to", "be", "or", "not", "to", "be". -/
theorem removeDuplicateLines_keeps_first_witness :
    ∃ r, RemoveDuplicateLines.apply (pushAll empty (bytes "to\nbe\nor\nnot\nto\nbe" ++ [0])) =
        .ok r ∧
      Holds r (([10] : List Nat).intercalate (RemoveDuplicateLines.firstOccurrences
        [bytes "to", bytes "be", bytes "or", bytes "not", bytes "to", bytes "be"])) :=
  (removeDuplicateLines_keeps_first (pushAll empty (bytes "to\nbe\nor\nnot\nto\nbe" ++ [0]))
    [bytes "to", bytes "be", bytes "or", bytes "not", bytes "to", bytes "be"]
    (by decide) (by decide) (by decide)).1

/-- Claim C9, evaluated where it fails: the one line "a" and the needle "x" satisfy what the
claim asks of its input, the line is kept, and `RemoveLines("x").apply` leaves "a\n" in the
buffer: the loop pushes a newline behind every line it keeps, the last one included, where the
claim has the kept lines joined by newlines without a newline after the last one. -/
theorem removeLines_trailing_newline :
    NullTerminated (pushAll empty (bytes "a" ++ [0])) (([10] : List Nat).intercalate [bytes "a"]) ∧
    (∀ x ∈ [bytes "a"], GoodLine x) ∧ bytes "x" ≠ [] ∧
    ∃ r, RemoveLines.apply (bytes "x") (pushAll empty (bytes "a" ++ [0])) = .ok r ∧
      Holds r (bytes "a\n") ∧
      ¬ Holds r (([10] : List Nat).intercalate (keptLines (bytes "x") [bytes "a"])) :=
  ⟨by decide, by decide, by decide, _, rfl, by decide, by decide⟩

/-- Claim C10: on a null-terminated buffer whose text has `L` bytes, `L` below `2^31`,
`CountSymbols.apply` returns and leaves the buffer holding exactly the decimal ASCII text of
`L`: every byte of it is a digit `'0'..'9'`, the first one is not `'0'` unless `L` is zero, and
read as a decimal numeral it is `L`; the size left is the length of that text. The text "abc"
gives "3" and the empty text gives "0". -/
theorem countSymbols_writes_decimal (v : CustomVector) (t : List Nat)
    (h : NullTerminated v t) (hL : t.length < 2 ^ 31) :
    (∃ r, CountSymbols.apply v = .ok r ∧ Holds r (decimalAscii t.length) ∧
      r.getSize = (decimalAscii t.length).length) ∧
    (∀ d ∈ decimalAscii t.length, 48 ≤ d ∧ d ≤ 57) ∧
    (t.length ≠ 0 → (decimalAscii t.length).head? ≠ some 48) ∧
    Nat.ofDigits 10 ((decimalAscii t.length).reverse.map (fun d => d - 48)) = t.length ∧
    (∃ r, CountSymbols.apply (pushAll empty (bytes "abc" ++ [0])) = .ok r ∧
      Holds r (bytes "3")) ∧
    (∃ r, CountSymbols.apply (pushAll empty (bytes "" ++ [0])) = .ok r ∧
      Holds r (bytes "0")) := by
  refine ⟨?_, ?_, ?_, ?_, ⟨_, rfl, by decide⟩, ⟨_, rfl, by decide⟩⟩
  · obtain ⟨r, e1, e2⟩ := CountSymbols.countSymbols_apply_spec v t h hL
    exact ⟨r, e1, e2, e2.2.1⟩
  · intro d hd
    rw [decimalAscii] at hd
    split at hd
    · simp at hd; omega
    · simp only [List.mem_map, List.mem_reverse] at hd
      obtain ⟨a, ha, rfl⟩ := hd
      have := Nat.digits_lt_base (by norm_num : 1 < 10) ha
      omega
  · intro hn
    rw [decimalAscii, if_neg hn]
    have hne : Nat.digits 10 t.length ≠ [] := Nat.digits_ne_nil_iff_ne_zero.mpr hn
    have hlast := Nat.getLast_digit_ne_zero 10 hn
    rw [List.head?_map, List.head?_reverse, List.getLast?_eq_getLast _ hne]
    simp only [Option.map_some', ne_eq, Option.some.injEq]
    omega
  · rw [decimalAscii]
    split
    · rename_i h0; rw [h0]; rfl
    · rw [← List.map_reverse, List.reverse_reverse, List.map_map]
      have : ((fun d => d - 48) ∘ fun d => 48 + d) = id := by
        funext d; simp
      rw [this, List.map_id, Nat.ofDigits_digits]

/-- Witness of C10: the count of the null-terminated text "hello, world". -/
theorem countSymbols_writes_decimal_witness :
    ∃ r, CountSymbols.apply (pushAll empty (bytes "hello, world" ++ [0])) = .ok r ∧
      Holds r (decimalAscii (bytes "hello, world").length) ∧
      r.getSize = (decimalAscii (bytes "hello, world").length).length :=
  (countSymbols_writes_decimal (pushAll empty (bytes "hello, world" ++ [0]))
    (bytes "hello, world") (by decide) (by decide)).1

/-- Claim C11: on a buffer holding `xs`, `RemoveNewline.apply` returns and leaves the buffer
holding `xs` without its newline bytes, the other bytes in their order; applied again to the
buffer it left, it returns and leaves the same size and the same bytes. -/
theorem removeNewline_idempotent (v : CustomVector) (xs : List Nat) (h : Holds v xs) :
    ∃ v1 v2, RemoveNewline.apply v = .ok v1 ∧ RemoveNewline.apply v1 = .ok v2 ∧
      Holds v1 (xs.filter (fun x => decide (x ≠ 10))) ∧
      Holds v2 (xs.filter (fun x => decide (x ≠ 10))) ∧
      v2.getSize = v1.getSize ∧ v2.contents = v1.contents := by
  obtain ⟨v1, e1, e2⟩ := RemoveCharacter.removeCharacter_apply_spec 10 v xs h
  have hno : (10 : Nat) ∉ xs.filter (fun x => decide (x ≠ 10)) := by
    simp [List.mem_filter]
  have e3 := RemoveCharacter.removeCharacter_apply_noop 10 _ v1 e2 hno
  refine ⟨v1, v1, ?_, ?_, e2, e2, rfl, rfl⟩
  · rw [RemoveNewline.removeNewline_apply_eq]; exact e1
  · rw [RemoveNewline.removeNewline_apply_eq]; exact e3

/-- Witness of C11: the buffer built from "ab\n\ncd\n". -/
theorem removeNewline_idempotent_witness :
    ∃ v1 v2, RemoveNewline.apply (pushAll empty (bytes "ab\n\ncd\n")) = .ok v1 ∧
      RemoveNewline.apply v1 = .ok v2 ∧
      Holds v1 ((bytes "ab\n\ncd\n").filter (fun x => decide (x ≠ 10))) ∧
      Holds v2 ((bytes "ab\n\ncd\n").filter (fun x => decide (x ≠ 10))) ∧
      v2.getSize = v1.getSize ∧ v2.contents = v1.contents :=
  removeNewline_idempotent (pushAll empty (bytes "ab\n\ncd\n")) (bytes "ab\n\ncd\n") (by decide)

/-- Claim C12, evaluated where it fails: on the null-terminated text "a!b" the first
`RemovePunctuation.apply` leaves "ab", written over the start of the storage, whose next bytes
are still the `b` and the terminator of the input; the second one reads "abb" up to that
terminator and leaves "abb", one byte longer than what the first one left. -/
theorem removePunctuation_second_pass_reads_stale_bytes :
    NullTerminated (pushAll empty (bytes "a!b" ++ [0])) (bytes "a!b") ∧
    ∃ v1 v2, RemovePunctuation.apply (pushAll empty (bytes "a!b" ++ [0])) = .ok v1 ∧
      RemovePunctuation.apply v1 = .ok v2 ∧
      Holds v1 (bytes "ab") ∧ NullTerminated v1 (bytes "abb") ∧
      Holds v2 (bytes "abb") ∧ v2.getSize ≠ v1.getSize :=
  ⟨by decide, _, _, rfl, rfl, by decide, by decide, by decide, by decide⟩

/-- Claim C13: on a buffer holding `xs`, `RemoveCharacter(c).apply` returns and leaves the
buffer holding the bytes of `xs` that differ from `c`, in their order, its size being their
number; when `c` does not occur in `xs` it returns the buffer as it was. -/
theorem removeCharacter_compacts (v : CustomVector) (xs : List Nat) (c : Nat)
    (h : Holds v xs) :
    (∃ r, RemoveCharacter.apply c v = .ok r ∧
      Holds r (xs.filter (fun x => decide (x ≠ c))) ∧
      r.getSize = (xs.filter (fun x => decide (x ≠ c))).length) ∧
    (c ∉ xs → RemoveCharacter.apply c v = .ok v) := by
  refine ⟨?_, RemoveCharacter.removeCharacter_apply_noop c xs v h⟩
  obtain ⟨r, e1, e2⟩ := RemoveCharacter.removeCharacter_apply_spec c v xs h
  exact ⟨r, e1, e2, e2.2.1⟩

/-- Witness of C13: removing the byte `t` from the buffer built from "tatter". -/
theorem removeCharacter_compacts_witness :
    ∃ r, RemoveCharacter.apply 116 (pushAll empty (bytes "tatter")) = .ok r ∧
      Holds r ((bytes "tatter").filter (fun x => decide (x ≠ 116))) ∧
      r.getSize = ((bytes "tatter").filter (fun x => decide (x ≠ 116))).length :=
  (removeCharacter_compacts (pushAll empty (bytes "tatter")) (bytes "tatter") 116
    (by decide)).1

/-- Claim C14: on a buffer holding `xs` (of a length within `size_t`, zero included),
`AddNewlineSentence.apply` returns and leaves the bytes of `xs` in their order, with one newline
right after index `i` exactly when `breakAfter xs i`, that is when the byte at `i` is `.`, `!` or
`?`, index `i + 1` exists and the byte there is no newline, no `.` and no zero byte. The empty
buffer stays empty and "A.B...C!" becomes "A.\nB...\nC!". -/
theorem addNewlineSentence_breaks_after_sentences (v : CustomVector) (xs : List Nat)
    (h : Holds v xs) (hsz : xs.length < sizeMod) :
    (∃ r, AddNewlineSentence.apply v = .ok r ∧ Holds r (withSentenceBreaks xs)) ∧
    (∀ i, breakAfter xs i = true ↔
      ∃ x y, xs[i]? = some x ∧ xs[i + 1]? = some y ∧
        (x = 46 ∨ x = 33 ∨ x = 63) ∧ y ≠ 10 ∧ y ≠ 46 ∧ y ≠ 0) ∧
    (∃ r, AddNewlineSentence.apply empty = .ok r ∧ Holds r []) ∧
    (∃ r, AddNewlineSentence.apply (pushAll empty (bytes "A.B...C!")) = .ok r ∧
      Holds r (bytes "A.\nB...\nC!")) := by
  refine ⟨AddNewlineSentence.addNewlineSentence_apply_spec v xs h hsz, fun i => ?_,
    ⟨_, rfl, by decide⟩, ⟨_, rfl, by decide⟩⟩
  rw [breakAfter]
  cases hx : xs[i]? with
  | none => simp
  | some x =>
    cases hy : xs[i + 1]? with
    | none => simp
    | some y => simp

/-- Witness of C14: the buffer built from "Go! Now? Yes.\n". -/
theorem addNewlineSentence_breaks_after_sentences_witness :
    ∃ r, AddNewlineSentence.apply (pushAll empty (bytes "Go! Now? Yes.\n")) = .ok r ∧
      Holds r (withSentenceBreaks (bytes "Go! Now? Yes.\n")) :=
  (addNewlineSentence_breaks_after_sentences (pushAll empty (bytes "Go! Now? Yes.\n"))
    (bytes "Go! Now? Yes.\n") (by decide) (by decide)).1

/-- Claim C15, refuted as stated: the text "a\n\nb" is the three runs "a", "" and "b" joined
by newlines, the runs are pairwise different, free of newlines and zero bytes and short, and
`RemoveDuplicateLines.apply` on the null-terminated buffer that holds it leaves "a\nb": the
empty run is gone and the content has changed. -/
theorem removeDuplicateLines_drops_empty_line :
    [bytes "a", [], bytes "b"].Nodup ∧
    (∀ l ∈ [bytes "a", [], bytes "b"], 10 ∉ l ∧ 0 ∉ l ∧ l.length < maxLineLen) ∧
    [bytes "a", [], bytes "b"].length ≤ maxLines ∧
    ([10] : List Nat).intercalate [bytes "a", [], bytes "b"] = bytes "a\n\nb" ∧
    NullTerminated (pushAll empty (bytes "a\n\nb" ++ [0])) (bytes "a\n\nb") ∧
    ∃ r, RemoveDuplicateLines.apply (pushAll empty (bytes "a\n\nb" ++ [0])) = .ok r ∧
      Holds r (bytes "a\nb") ∧ ¬ Holds r (bytes "a\n\nb") :=
  ⟨by decide, by decide, by decide, by decide, by decide, _, rfl, by decide, by decide⟩

/-- Claim C15, amended: a line is a run of bytes between newlines or the ends of the text that
is not empty. On a null-terminated buffer whose text is the lines `ls` joined by single
newlines, with at most 1000 lines, each of them not empty, shorter than 1000 bytes and without
a newline or a zero byte, and pairwise different, `RemoveDuplicateLines.apply` returns and
leaves the buffer holding that same text. -/
theorem removeDuplicateLines_distinct_lines_unchanged (v : CustomVector)
    (ls : List (List Nat)) (h : NullTerminated v (([10] : List Nat).intercalate ls))
    (hgood : ∀ x ∈ ls, GoodLine x ∧ x.length < maxLineLen) (hcap : ls.length ≤ maxLines)
    (hnodup : ls.Nodup) :
    ∃ r, RemoveDuplicateLines.apply v = .ok r ∧
      Holds r (([10] : List Nat).intercalate ls) := by
  obtain ⟨r, e1, e2⟩ := RemoveDuplicateLines.dedup_apply_spec v ls h hgood hcap
  rw [RemoveDuplicateLines.firstOccurrences_of_nodup ls hnodup] at e2
  exact ⟨r, e1, e2⟩

/-- Witness of C15 as amended: the lines "a", "b", "ab". -/
theorem removeDuplicateLines_distinct_lines_unchanged_witness :
    ∃ r, RemoveDuplicateLines.apply (pushAll empty (bytes "a\nb\nab" ++ [0])) = .ok r ∧
      Holds r (([10] : List Nat).intercalate [bytes "a", bytes "b", bytes "ab"]) :=
  removeDuplicateLines_distinct_lines_unchanged (pushAll empty (bytes "a\nb\nab" ++ [0]))
    [bytes "a", bytes "b", bytes "ab"] (by decide) (by decide) (by decide) (by decide)

/-- Claim C16: the buffer reached from the empty one by any sequence of `push_back`, `insert`,
`resize` and `clear` has its size at most its capacity. `push_back` and an `insert` at a
position up to the size leave the capacity `max 1 (2 * capacity)` when they find the size equal
to the capacity and leave it as it was otherwise; `resize` and `clear` leave the capacity as it
was, and `resize` to at least the size leaves the whole buffer as it was. -/
theorem size_le_capacity_and_doubling :
    (∀ ops : List BufferOp, (runOps ops empty).size ≤ (runOps ops empty).capacity) ∧
    (∀ (v : CustomVector) (c : Nat), (v.push_back c).capacity =
      if v.size = v.capacity then max 1 (2 * v.capacity) else v.capacity) ∧
    (∀ (v : CustomVector) (p b : Nat), p ≤ v.size →
      (v.insert (v.begin.add p) b).2.capacity =
        if v.size = v.capacity then max 1 (2 * v.capacity) else v.capacity) ∧
    (∀ (v : CustomVector) (n : Nat), (v.resize n).capacity = v.capacity) ∧
    (∀ v : CustomVector, v.clear.capacity = v.capacity) ∧
    (∀ (v : CustomVector) (n : Nat), v.size ≤ n → v.resize n = v) := by
  refine ⟨fun ops => runOps_size_le_capacity ops empty (Nat.le_refl 0), push_back_capacity,
    insert_capacity, fun v n => ?_, fun v => rfl, fun v n hn => ?_⟩
  · rw [resize]; split <;> rfl
  · rw [resize, if_neg (by omega)]

/-- Claim C17, evaluated where it fails: on the null-terminated text "The warlock casts hope."
`RemoveString("warlock").apply` leaves the 16 bytes "The  casts hope.", written over the start of
the storage, whose next bytes are still the end "s hope." of the input and its terminator; the
list `[RemoveString("warlock"), CountSymbols]` then counts up to that terminator and leaves
"23", not "16". -/
theorem removeString_then_countSymbols_counts_stale_bytes :
    NullTerminated (pushAll empty (bytes "The warlock casts hope." ++ [0]))
      (bytes "The warlock casts hope.") ∧
    bytes "warlock" ≠ [] ∧
    ∃ v1 v2,
      RemoveString.apply (bytes "warlock")
        (pushAll empty (bytes "The warlock casts hope." ++ [0])) = .ok v1 ∧
      Holds v1 (bytes "The  casts hope.") ∧ v1.getSize = 16 ∧
      NullTerminated v1 (bytes "The  casts hope.s hope.") ∧
      applyTransformations [⟨RemoveString.apply (bytes "warlock")⟩, ⟨CountSymbols.apply⟩]
        (pushAll empty (bytes "The warlock casts hope." ++ [0])) = .ok v2 ∧
      Holds v2 (bytes "23") ∧ ¬ Holds v2 (bytes "16") :=
  ⟨by decide, by decide, _, _, rfl, by decide, by decide, by decide, rfl, by decide, by decide⟩

/-- Claim C18, evaluated where it fails: with `maxChars = 1` on the buffer built from "a b" the
loop of `AddNewlineMaxChars.apply` is still running after any number of rounds. From the second
round on every round finds the space at index `i`, inserts a newline there, which moves the
space to `i + 1`, and the next round finds it again, while the size grows as fast as `i`. -/
theorem addNewlineMaxChars_never_finishes :
    ∀ fuel : Nat,
      AddNewlineMaxChars.apply 1 fuel (pushAll empty (bytes "a b")) = .error .outOfFuel :=
  fun fuel => AddNewlineMaxChars.addNewlineMaxChars_stuck_from_start fuel _ (by decide)

/-- Claim C19, evaluated where it fails: on the null-terminated text made of 1001 lines "a"
joined by newlines, `LexSortLines.apply` copies line number 1001 into row 1000 of its table of
1000 rows, a write outside the table, so that nothing is known of what it does from there on;
no line is dropped and no sorted text is returned. -/
theorem lexSortLines_overflows_table :
    LexSortLines.apply
      (pushAll empty (([10] : List Nat).intercalate (List.replicate 1001 (bytes "a")) ++ [0])) =
      .error .undefinedBehaviour := by
  have hline : ∀ x ∈ List.replicate 1001 (bytes "a"), GoodLine x ∧ x.length < maxLineLen := by
    intro x hx
    rw [List.eq_of_mem_replicate hx]
    decide
  exact LexSortLines.lexSort_apply_overflow _ (List.replicate 1001 (bytes "a"))
    (nullTerminated_pushAll _ (zero_not_mem_intercalate _ (fun x hx => (hline x hx).1.2.2)))
    hline (by rw [List.length_replicate]; decide)

/-- Claim C20, evaluated where it fails: with the empty string as `old` on the buffer built
from "a", the loop of `ReplaceString.apply` is still at index 0 after any number of rounds,
each of which appends `new` to the result: `i += oldStrLen - 1` adds the largest `size_t` and
`++i` brings `i` back to where it was, so `apply` does not return. With `old` or `new` absent
`apply` does return the buffer as it was. -/
theorem replaceString_empty_old_never_finishes :
    (∀ (fuel : Nat) (result : CustomVector),
      ReplaceString.loop (pushAll empty (bytes "a")) [] (bytes "b")
        (pushAll empty (bytes "a")).getSize fuel 0 result = .error .outOfFuel) ∧
    ReplaceString.apply (some []) (some (bytes "b")) (pushAll empty (bytes "a")) =
      .error .outOfFuel ∧
    (∀ (new : Option (List Nat)) (v : CustomVector), ReplaceString.apply none new v = .ok v) ∧
    (∀ (old : Option (List Nat)) (v : CustomVector), ReplaceString.apply old none v = .ok v) := by
  have key := ReplaceString.replaceString_empty_old_stuck (pushAll empty (bytes "a"))
    (bytes "b") (pushAll empty (bytes "a")).getSize (by decide)
  refine ⟨fun fuel result => key fuel result, ?_, fun new v => ?_, fun old v => ?_⟩
  · rw [ReplaceString.apply]
    simp only [key]
  · cases new <;> rfl
  · cases old <;> rfl

/-- Claim C21: on a buffer holding `xs`, for every `maxChars`, the loop of
`AddNewlineMaxChars.apply` has, after any number `k` of rounds, not thrown and left a buffer
whose bytes without the newlines are the bytes of `xs` without the newlines, in the same order,
and that is at least as long as `xs`; so has every buffer that `apply` returns. One round
leaves the bytes as they were or puts one newline in front of an index that holds a space or a
newline. The state after `k` rounds is the state of the loop: when the index has reached the
size there, `apply` returns that buffer. -/
theorem addNewlineMaxChars_keeps_other_bytes (v : CustomVector) (xs : List Nat)
    (h : Holds v xs) (maxCharsK : Int) :
    (∀ k, ∃ i c d ys, AddNewlineMaxChars.afterRounds maxCharsK k 0 0 v = .ok (i, c, d) ∧
      Holds d ys ∧
      ys.filter (fun x => decide (x ≠ 10)) = xs.filter (fun x => decide (x ≠ 10)) ∧
      xs.length ≤ ys.length) ∧
    (∀ fuel r, AddNewlineMaxChars.apply maxCharsK fuel v = .ok r →
      ∃ ys, Holds r ys ∧
        ys.filter (fun x => decide (x ≠ 10)) = xs.filter (fun x => decide (x ≠ 10)) ∧
        xs.length ≤ ys.length) ∧
    (∀ i currLineLen, i < xs.length →
      ∃ c d ys, AddNewlineMaxChars.round maxCharsK i currLineLen v = .ok (c, d) ∧
        Holds d ys ∧ SameOrNewlineInserted xs ys) ∧
    (∀ k i c d, AddNewlineMaxChars.afterRounds maxCharsK k 0 0 v = .ok (i, c, d) →
      ¬ i < d.getSize → AddNewlineMaxChars.apply maxCharsK (k + 1) v = .ok d) :=
  ⟨fun k => AddNewlineMaxChars.afterRounds_spec maxCharsK k 0 0 v xs h,
    fun fuel r hr => AddNewlineMaxChars.loop_result_spec maxCharsK fuel 0 0 v xs r h hr,
    fun i c hi => AddNewlineMaxChars.round_spec maxCharsK i c xs v h hi,
    fun k i c d ha hend => AddNewlineMaxChars.loop_of_afterRounds maxCharsK k 0 0 v i c d ha hend⟩

/-- Witness of C21: the buffer built from "aa bb cc dd ee" and `maxChars = 5`, for which
`apply` returns "aa\n bb\n cc\n dd\n ee". -/
theorem addNewlineMaxChars_keeps_other_bytes_witness :
    (∃ i c d ys, AddNewlineMaxChars.afterRounds 5 7 0 0 (pushAll empty (bytes "aa bb cc dd ee")) =
        .ok (i, c, d) ∧ Holds d ys ∧
      ys.filter (fun x => decide (x ≠ 10)) =
        (bytes "aa bb cc dd ee").filter (fun x => decide (x ≠ 10)) ∧
      (bytes "aa bb cc dd ee").length ≤ ys.length) ∧
    (∃ r, AddNewlineMaxChars.apply 5 50 (pushAll empty (bytes "aa bb cc dd ee")) = .ok r ∧
      Holds r (bytes "aa\n bb\n cc\n dd\n ee")) :=
  ⟨(addNewlineMaxChars_keeps_other_bytes (pushAll empty (bytes "aa bb cc dd ee"))
      (bytes "aa bb cc dd ee") (by decide) 5).1 7,
    ⟨_, rfl, by decide⟩⟩

end TextEditor
